import Mathlib

/-! # http-downloader: the bounded blocking queue (`src/queue.c`) and the HTTP client (`src/http.c`)

A shallow embedding of the two C files.  Pointers are addresses (`0` is `NULL`), the
`QueueElement` blocks handed out by `malloc` live in an explicit heap, semaphores are their
counter values, and a call that can block or run into undefined behaviour returns an `Outcome`.
-/

namespace HttpDownloader

/-! ## Memory model -/

/-- A C pointer: an address, with `0` standing for `NULL`. -/
abbrev Ptr := Nat

/-- The result of running a piece of C code: it finishes with a value, it blocks forever
(on a semaphore or a mutex), or it runs into undefined behaviour (an invalid pointer is
dereferenced or freed, a string operation leaves its array). -/
inductive Outcome (α : Type) where
  | done (a : α)
  | blocked
  | undefined

/-- Struct `QueueElement` of queue.c: the stored item and the link to the next element. -/
structure QueueElement where
  item : Ptr
  next : Ptr
deriving DecidableEq

/-- The `QueueElement` blocks that are currently allocated, keyed by address. -/
structure Heap where
  cells : List (Ptr × QueueElement)

/-- Reading the block at address `p`: `none` when `p` is not an allocated block. -/
def Heap.read (h : Heap) (p : Ptr) : Option QueueElement :=
  (h.cells.find? (fun c => c.1 == p)).map Prod.snd

/-- The heap without the block at `p`. -/
def Heap.erase (h : Heap) (p : Ptr) : Heap :=
  ⟨h.cells.filter (fun c => c.1 != p)⟩

/-- The heap with the block at `p` holding `e`. -/
def Heap.write (h : Heap) (p : Ptr) (e : QueueElement) : Heap :=
  ⟨(p, e) :: (h.erase p).cells⟩

/-- Libc `free(p)`: undefined behaviour (`none`) unless `p` is an allocated block. -/
def Heap.free (h : Heap) (p : Ptr) : Option Heap :=
  match h.read p with
  | none => none
  | some _ => some (h.erase p)

/-- Libc `malloc`, assumed to succeed: it picks the address of the new block, which is never
`NULL` and never a block that is still allocated.  Addresses of freed blocks may be reused. -/
structure Allocator where
  malloc : Heap → Ptr
  nonnull : ∀ h : Heap, malloc h ≠ 0
  fresh : ∀ h : Heap, h.read (malloc h) = none

/-- One more than the largest allocated address. -/
def Heap.top (h : Heap) : Ptr :=
  (h.cells.map Prod.fst).foldr max 0 + 1

/-! ## queue.c -/

/-- Struct `QueueStruct` of queue.c.  `lock` is the mutex (the thread holding it, if any);
`spaces_available` and `spaces_taken` are the values of the two semaphores. -/
structure Queue where
  first : Ptr
  last : Ptr
  lock : Option Nat
  spaces_available : Nat
  spaces_taken : Nat
deriving DecidableEq

/-- The queue struct together with the element blocks it points into. -/
structure Mem where
  queue : Queue
  heap : Heap

/-- Function `new_queue_element` of queue.c: a fresh block holding `item` with `next = NULL`;
returns its address and the new heap. -/
def new_queue_element (A : Allocator) (h : Heap) (item : Ptr) : Ptr × Heap :=
  let element := A.malloc h
  (element, h.write element { item := item, next := 0 })

/-- The largest value a semaphore can hold (glibc: `INT_MAX`). -/
def SEM_VALUE_MAX : Nat := 2147483647

/-- Libc `sem_init(sem, 0, value)` called with an `int`: the argument is converted to
`unsigned int`; a value above `SEM_VALUE_MAX` makes the call fail with `EINVAL` and leaves the
semaphore as it was (`old`).  Returns the content of the semaphore after the call. -/
def sem_init (old : Nat) (value : Int) : Nat :=
  let v := (value % 4294967296).toNat
  if v ≤ SEM_VALUE_MAX then v else old

/-- Libc `sem_wait`: blocks (`none`) while the value is zero, otherwise decrements it. -/
def sem_wait (value : Nat) : Option Nat :=
  if value = 0 then none else some (value - 1)

/-- Libc `sem_post`: increments the value. -/
def sem_post (value : Nat) : Nat := value + 1

/-- Libc `pthread_mutex_lock` by thread `self`: blocks (`none`) while the mutex is held. -/
def pthread_mutex_lock (lock : Option Nat) (self : Nat) : Option (Option Nat) :=
  match lock with
  | none => some (some self)
  | some _ => none

/-- Libc `pthread_mutex_unlock` by thread `self`: undefined (`none`) unless `self` holds it. -/
def pthread_mutex_unlock (lock : Option Nat) (self : Nat) : Option (Option Nat) :=
  if lock = some self then some none else none

/-- Function `queue_alloc` of queue.c.  `raw` is the content of the block returned by
`malloc(sizeof(Queue))` before it is initialised; the results of the `sem_init` calls are
not checked. -/
def queue_alloc (size : Int) (raw : Queue) : Queue :=
  { first := 0
    last := 0
    lock := none
    spaces_available := sem_init raw.spaces_available size
    spaces_taken := sem_init raw.spaces_taken 0 }

/-- The locked section of `queue_put` (lines 92-99 of queue.c). -/
def put_section (A : Allocator) (m : Mem) (item : Ptr) : Outcome Mem :=
  if m.queue.first ≠ 0 then
    -- queue->last->next = new_queue_element(item);
    let (element, h1) := new_queue_element A m.heap item
    match h1.read m.queue.last with
    | none => .undefined
    | some l =>
      let h2 := h1.write m.queue.last { l with next := element }
      -- queue->last = queue->last->next;
      match h2.read m.queue.last with
      | none => .undefined
      | some l2 => .done { queue := { m.queue with last := l2.next }, heap := h2 }
  else
    -- queue->first = new_queue_element(item); queue->last = queue->first;
    let (element, h1) := new_queue_element A m.heap item
    .done { queue := { m.queue with first := element, last := element }, heap := h1 }

/-- The locked section of `queue_get` (lines 110-112 of queue.c): returns the new memory, the
pointer `outgoing_element` and the item read from it. -/
def get_section (m : Mem) : Outcome (Mem × Ptr × Ptr) :=
  let outgoing_element := m.queue.first
  match m.heap.read outgoing_element with
  | none => .undefined
  | some e =>
    -- void *item = outgoing_element->item; queue->first = queue->first->next;
    .done ({ m with queue := { m.queue with first := e.next } }, outgoing_element, e.item)

/-- Function `queue_put` of queue.c, run to completion by thread `self` with no other thread
taking a step in between. -/
def queue_put (A : Allocator) (self : Nat) (m : Mem) (item : Ptr) : Outcome Mem :=
  match sem_wait m.queue.spaces_available with
  | none => .blocked
  | some sa =>
    match pthread_mutex_lock m.queue.lock self with
    | none => .blocked
    | some held =>
      match put_section A { m with queue := { m.queue with spaces_available := sa, lock := held } } item with
      | .blocked => .blocked
      | .undefined => .undefined
      | .done m1 =>
        match pthread_mutex_unlock m1.queue.lock self with
        | none => .undefined
        | some unlocked =>
          .done { m1 with queue := { m1.queue with
            lock := unlocked, spaces_taken := sem_post m1.queue.spaces_taken } }

/-- Function `queue_get` of queue.c, run to completion by thread `self` with no other thread
taking a step in between: the new memory and the returned item. -/
def queue_get (self : Nat) (m : Mem) : Outcome (Mem × Ptr) :=
  match sem_wait m.queue.spaces_taken with
  | none => .blocked
  | some st =>
    match pthread_mutex_lock m.queue.lock self with
    | none => .blocked
    | some held =>
      match get_section { m with queue := { m.queue with spaces_taken := st, lock := held } } with
      | .blocked => .blocked
      | .undefined => .undefined
      | .done (m1, outgoing_element, item) =>
        match pthread_mutex_unlock m1.queue.lock self with
        | none => .undefined
        | some unlocked =>
          let q2 := { m1.queue with
            lock := unlocked, spaces_available := sem_post m1.queue.spaces_available }
          -- free(outgoing_element); return item;
          match m1.heap.free outgoing_element with
          | none => .undefined
          | some h2 => .done ({ queue := q2, heap := h2 }, item)

/-- A call made on the queue by a client thread. -/
inductive Call where
  | put (item : Ptr)
  | get
deriving DecidableEq

/-- A sequential run of calls from memory `m`: the final memory and the items returned by the
`queue_get` calls, in the order of the calls. -/
def run (A : Allocator) (self : Nat) (m : Mem) : List Call → Outcome (Mem × List Ptr)
  | [] => .done (m, [])
  | .put item :: rest =>
    match queue_put A self m item with
    | .blocked => .blocked
    | .undefined => .undefined
    | .done m1 => run A self m1 rest
  | .get :: rest =>
    match queue_get self m with
    | .blocked => .blocked
    | .undefined => .undefined
    | .done (m1, item) =>
      match run A self m1 rest with
      | .blocked => .blocked
      | .undefined => .undefined
      | .done (m2, items) => .done (m2, item :: items)

/-- The memory right after `queue_alloc(size)`: the new queue and no element block. -/
def Mem.init (size : Int) (raw : Queue) : Mem :=
  { queue := queue_alloc size raw, heap := ⟨[]⟩ }

/-- The items held by the chain of elements that starts at `p`, following `next` for at most
`fuel` elements. -/
def Heap.walk (h : Heap) : Nat → Ptr → List Ptr
  | 0, _ => []
  | fuel + 1, p =>
    if p = 0 then [] else
      match h.read p with
      | none => []
      | some e => e.item :: h.walk fuel e.next

/-- The items reachable from `queue->first`, head first.  Every allocated block can be visited
once, so the number of blocks is enough fuel. -/
def Mem.items (m : Mem) : List Ptr :=
  m.heap.walk m.heap.cells.length m.queue.first

/-- The number of elements reachable from `queue->first` (the spec's `count`). -/
def Mem.count (m : Mem) : Nat := m.items.length

/-- The allocator that always returns the address above every allocated block. -/
def bump : Allocator where
  malloc := Heap.top
  nonnull := fun _ => Nat.succ_ne_zero _
  fresh := by
    intro h
    have key : ∀ (l : List (Ptr × QueueElement)) (c : Ptr × QueueElement), c ∈ l →
        c.1 ≤ (l.map Prod.fst).foldr max 0 := by
      intro l
      induction l with
      | nil => intro c hc; cases hc
      | cons x xs ih =>
        intro c hc
        simp only [List.map_cons, List.foldr_cons]
        rcases List.mem_cons.mp hc with e | e
        · subst e
          exact Nat.le_max_left _ _
        · exact Nat.le_trans (ih c e) (Nat.le_max_right _ _)
    unfold Heap.read
    rw [Option.map_eq_none', List.find?_eq_none]
    intro c hc
    have hne : c.1 ≠ h.top := by
      unfold Heap.top
      exact Nat.ne_of_lt (Nat.lt_succ_of_le (key _ c hc))
    simpa using hne

/-! ### Threads

Any number of threads call `queue_put` and `queue_get` on one queue.  A thread is at one of the
program points below; a step of a thread runs the statement at its program point. -/

/-- The program point of a client thread, named after the statement it runs next. -/
inductive PC where
  /-- Outside any call on the queue. -/
  | idle
  /-- In `queue_put`, line 89: `sem_wait(&queue->spaces_available)` -/
  | put_wait (item : Ptr)
  /-- In `queue_put`, line 90: `pthread_mutex_lock` -/
  | put_lock (item : Ptr)
  /-- In `queue_put`, lines 92-99: the list update -/
  | put_update (item : Ptr)
  /-- In `queue_put`, line 101: `pthread_mutex_unlock` -/
  | put_unlock (item : Ptr)
  /-- In `queue_put`, line 102: `sem_post(&queue->spaces_taken)`, then return -/
  | put_post (item : Ptr)
  /-- In `queue_get`, line 107: `sem_wait(&queue->spaces_taken)` -/
  | get_wait
  /-- In `queue_get`, line 108: `pthread_mutex_lock` -/
  | get_lock
  /-- In `queue_get`, lines 110-112: the list update -/
  | get_update
  /-- In `queue_get`, line 114: `pthread_mutex_unlock` -/
  | get_unlock (outgoing_element item : Ptr)
  /-- In `queue_get`, line 115: `sem_post(&queue->spaces_available)` -/
  | get_post (outgoing_element item : Ptr)
  /-- In `queue_get`, lines 117-118: `free(outgoing_element); return item;` -/
  | get_free (outgoing_element item : Ptr)
deriving DecidableEq

/-- The shared memory and the program point of every thread. -/
structure State where
  mem : Mem
  threads : List PC

/-- The state in which thread `t` has moved to `pc` and the memory is `m`. -/
def State.goto (s : State) (t : Nat) (pc : PC) (m : Mem) : State :=
  { mem := m, threads := s.threads.set t pc }

/-- One step of thread `t`.  An idle thread starts the call `c`; a thread inside a call runs
its next statement (`c` is not looked at).  `blocked` means the step cannot be taken now. -/
def stepThread (A : Allocator) (s : State) (t : Nat) (c : Call) : Outcome State :=
  let q := s.mem.queue
  match s.threads[t]? with
  | none => .blocked
  | some .idle =>
    match c with
    | .put item => .done (s.goto t (.put_wait item) s.mem)
    | .get => .done (s.goto t .get_wait s.mem)
  | some (.put_wait item) =>
    match sem_wait q.spaces_available with
    | none => .blocked
    | some v => .done (s.goto t (.put_lock item) { s.mem with queue := { q with spaces_available := v } })
  | some (.put_lock item) =>
    match pthread_mutex_lock q.lock t with
    | none => .blocked
    | some l => .done (s.goto t (.put_update item) { s.mem with queue := { q with lock := l } })
  | some (.put_update item) =>
    match put_section A s.mem item with
    | .blocked => .blocked
    | .undefined => .undefined
    | .done m => .done (s.goto t (.put_unlock item) m)
  | some (.put_unlock item) =>
    match pthread_mutex_unlock q.lock t with
    | none => .undefined
    | some l => .done (s.goto t (.put_post item) { s.mem with queue := { q with lock := l } })
  | some (.put_post _) =>
    .done (s.goto t .idle { s.mem with queue := { q with spaces_taken := sem_post q.spaces_taken } })
  | some .get_wait =>
    match sem_wait q.spaces_taken with
    | none => .blocked
    | some v => .done (s.goto t .get_lock { s.mem with queue := { q with spaces_taken := v } })
  | some .get_lock =>
    match pthread_mutex_lock q.lock t with
    | none => .blocked
    | some l => .done (s.goto t .get_update { s.mem with queue := { q with lock := l } })
  | some .get_update =>
    match get_section s.mem with
    | .blocked => .blocked
    | .undefined => .undefined
    | .done (m, outgoing_element, item) => .done (s.goto t (.get_unlock outgoing_element item) m)
  | some (.get_unlock outgoing_element item) =>
    match pthread_mutex_unlock q.lock t with
    | none => .undefined
    | some l =>
      .done (s.goto t (.get_post outgoing_element item) { s.mem with queue := { q with lock := l } })
  | some (.get_post outgoing_element item) =>
    .done (s.goto t (.get_free outgoing_element item)
      { s.mem with queue := { q with spaces_available := sem_post q.spaces_available } })
  | some (.get_free outgoing_element _) =>
    match s.mem.heap.free outgoing_element with
    | none => .undefined
    | some h => .done (s.goto t .idle { s.mem with heap := h })

/-- The state right after `queue_alloc(size)`, with `T` client threads, none inside a call. -/
def State.init (size : Int) (raw : Queue) (T : Nat) : State :=
  { mem := Mem.init size raw, threads := List.replicate T .idle }

/-- The states reachable from `queue_alloc(size)` by steps of the `T` threads, in any
interleaving, with any calls and any behaviour of `malloc`. -/
inductive Reachable (size : Int) (raw : Queue) (T : Nat) : State → Prop where
  | init : Reachable size raw T (State.init size raw T)
  | step {s s2 : State} (A : Allocator) (t : Nat) (c : Call) :
      Reachable size raw T s → stepThread A s t c = .done s2 → Reachable size raw T s2

/-- Running a schedule: a list of (thread, call to start if the thread is idle), one step
each. -/
def runSchedule (A : Allocator) (s : State) : List (Nat × Call) → Outcome State
  | [] => .done s
  | (t, c) :: rest =>
    match stepThread A s t c with
    | .done s2 => runSchedule A s2 rest
    | .blocked => .blocked
    | .undefined => .undefined

/-- The schedule in which thread `t` alone makes the calls `ops` one after the other: the six
steps of each `queue_put`, the seven steps of each `queue_get`. -/
def scheduleOf (t : Nat) : List Call → List (Nat × Call)
  | [] => []
  | .put item :: rest => List.replicate 6 (t, .put item) ++ scheduleOf t rest
  | .get :: rest => List.replicate 7 (t, .get) ++ scheduleOf t rest

/-- An uninitialised queue block, as `malloc` may return it. -/
def rawQueue : Queue := ⟨7, 7, some 1, 9, 9⟩

/-- Capacity 1, one thread: the thread has linked item 10 and still holds the mutex. -/
def midPut : State :=
  ⟨⟨⟨1, 1, some 0, 0, 0⟩, ⟨[(1, ⟨10, 0⟩)]⟩⟩, [.put_unlock 10]⟩

/-- Capacity 1, two threads: item 10 is queued and thread 1 is about to wait in a put. -/
def fullQueue : State :=
  ⟨⟨⟨1, 1, none, 0, 1⟩, ⟨[(1, ⟨10, 0⟩)]⟩⟩, [.idle, .put_wait 20]⟩

/-- Capacity 1, two threads: item 10 is queued and thread 1 has entered the locked section of
a get. -/
def midGet : State :=
  ⟨⟨⟨1, 1, some 1, 0, 0⟩, ⟨[(1, ⟨10, 0⟩)]⟩⟩, [.idle, .get_update]⟩

/-- Weight 1 for a thread that has passed a `sem_wait` and not yet done the `sem_post` of the
same call. -/
def inFlight : PC → Nat
  | .put_lock _ | .put_update _ | .put_unlock _ | .put_post _ => 1
  | .get_lock | .get_update | .get_unlock _ _ | .get_post _ _ => 1
  | _ => 0

/-- Weight 1 for a `queue_put` that has taken its space but not yet linked its element. -/
def reserved : PC → Nat
  | .put_lock _ | .put_update _ => 1
  | _ => 0

/-- Weight 1 for a `queue_put` that has linked its element but not yet posted `spaces_taken`. -/
def added : PC → Nat
  | .put_unlock _ | .put_post _ => 1
  | _ => 0

/-- Weight 1 for a `queue_get` that has passed its wait but not yet unlinked the head. -/
def claimed : PC → Nat
  | .get_lock | .get_update => 1
  | _ => 0

/-- Weight 1 for a `queue_get` that has unlinked the head but not yet posted
`spaces_available`. -/
def removed : PC → Nat
  | .get_unlock _ _ | .get_post _ _ => 1
  | _ => 0

/-- The number of threads, counted with weight `w`. -/
def tally (w : PC → Nat) (threads : List PC) : Nat := (threads.map w).sum

/-- Whether a thread at this program point is between its `pthread_mutex_lock` and its
`pthread_mutex_unlock`. -/
def holdsLock : PC → Bool
  | .put_update _ | .put_unlock _ | .get_update | .get_unlock _ _ => true
  | _ => false

/-- The unlinked element a `queue_get` still has to free. -/
def outgoingOf : PC → Option Ptr
  | .get_unlock o _ | .get_post o _ | .get_free o _ => some o
  | _ => none

/-- The items passed to the `queue_put` calls of a run, in call order. -/
def puts : List Call → List Ptr
  | [] => []
  | .put item :: rest => item :: puts rest
  | .get :: rest => puts rest

/-- The number of `queue_get` calls of a run. -/
def gets : List Call → Nat
  | [] => 0
  | .put _ :: rest => gets rest
  | .get :: rest => gets rest + 1

/-- No call of the run is issued in a situation where it would block: starting with `held`
items in a queue of capacity `N`, a put is issued only while fewer than `N` items are held
and a get only while at least one is. -/
def noCallBlocks (N : Nat) : Nat → List Call → Prop
  | _, [] => True
  | held, .put _ :: rest => held < N ∧ noCallBlocks N (held + 1) rest
  | held, .get :: rest => 0 < held ∧ noCallBlocks N (held - 1) rest

/-! ## http.c

Strings and buffers are lists of byte values; the content of a C string has no zero byte. -/

/-- The bytes of an ASCII string literal. -/
def bytes (s : String) : List Nat := s.toList.map Char.toNat

/-- Macro `BUF_SIZE` of http.c. -/
def BUF_SIZE : Nat := 2048

/-- The C string stored at the start of the array `mem`: the bytes before the first zero.
`none` when the array holds no zero byte, so that a string function would leave the array. -/
def cstr (mem : List Nat) : Option (List Nat) :=
  if 0 ∈ mem then some (mem.takeWhile (fun c => c != 0)) else none

/-- Libc `strstr` on the contents of two C strings: the offset of the first occurrence of
`needle` in `haystack`, `none` for a `NULL` result. -/
def strstr : List Nat → List Nat → Option Nat
  | [], needle => if needle.isPrefixOf [] then some 0 else none
  | c :: rest, needle =>
    if needle.isPrefixOf (c :: rest) then some 0 else (strstr rest needle).map (fun i => i + 1)

/-- Libc `strncpy(dest, src, n)` into an array of `n` bytes, `src` being the content of a C
string: the first `n` bytes of `src`, padded with zeros when `src` is shorter. -/
def strncpy (src : List Nat) (n : Nat) : List Nat :=
  if src.length < n then src ++ List.replicate (n - src.length) 0 else src.take n

/-- Modelled from the spec: struct `Buffer` of http.h, which is not among the sources: the
allocated bytes `data` and the logical length `length`. -/
structure Buffer where
  data : List Nat
  length : Nat

/-- The first `length` bytes of the buffer: the response received. -/
def Buffer.content (b : Buffer) : List Nat := b.data.take b.length

/-- Function `http_get_content` of http.c: the offset into `response->data` of the pointer
it returns. -/
def http_get_content (response : Buffer) : Outcome Nat :=
  match cstr response.data with
  | none => .undefined
  | some text =>
    match strstr text (bytes "\r\n\r\n") with
    | some header_end => .done (header_end + 4)
    | none => .done 0

/-- A call `http_query(host, page, port)`. -/
structure Query where
  host : List Nat
  page : List Nat
  port : Int
deriving DecidableEq

/-- Function `http_url` of http.c: the `http_query` call it makes, or `none` when it returns
`NULL` without calling `http_query`. -/
def http_url (url : List Nat) : Outcome (Option Query) :=
  -- char host[BUF_SIZE]; strncpy(host, url, BUF_SIZE);
  let host := strncpy url BUF_SIZE
  -- char *page = strstr(host, "/");
  match cstr host with
  | none => .undefined
  | some text =>
    match strstr text (bytes "/") with
    | some page =>
      -- page[0] = '\0'; ++page; return http_query(host, page, 80);
      let host2 := host.set page 0
      match cstr host2, cstr (host2.drop (page + 1)) with
      | some h, some p => .done (some { host := h, page := p, port := 80 })
      | _, _ => .undefined
    | none => .done none

/-- The position of the first occurrence of `sep` in `buf`, as the spec words it. -/
def firstOccurrence (sep buf : List Nat) : Option Nat :=
  (List.range (buf.length + 1)).find? (fun i => sep.isPrefixOf (buf.drop i))

/-- The spec's `split_body`: the bytes after the first occurrence of the separator, the whole
buffer when there is none. -/
def split_body (buf : List Nat) : List Nat :=
  match firstOccurrence (bytes "\r\n\r\n") buf with
  | some i => buf.drop (i + 4)
  | none => buf

/-- A response with a zero byte in its header: `a`, zero, the separator, `hello`. -/
def zeroInHeader : Buffer :=
  { data := bytes "a" ++ [0] ++ bytes "\r\n\r\nhello" ++ [0], length := 11 }

/-- A small response followed by its zero terminator and two more bytes of the allocation. -/
def helloResponse : Buffer :=
  { data := bytes "HTTP/1.0 200 OK\r\n\r\nhello" ++ [0, 120, 121], length := 24 }

/-- Libc `malloc(size)` for a block of bytes, assumed to succeed: `size` bytes of indeterminate
content, here the values `fill` gives. -/
def mallocBytes (size : Nat) (fill : Nat → Nat) : List Nat :=
  (List.range size).map fill

/-- Libc `realloc(data, size)`, assumed to succeed: a block of `size` bytes that starts with
the old content; the bytes beyond the old block are indeterminate (`fill`). -/
def realloc (data : List Nat) (size : Nat) (fill : Nat → Nat) : List Nat :=
  data.take size ++ (List.range (size - data.length)).map fill

/-- Function `create_buffer` of http.c. -/
def create_buffer (fill : Nat → Nat) : Buffer :=
  { data := mallocBytes BUF_SIZE fill, length := 0 }

/-- A call `recv(sock, data + offset, BUF_SIZE, 0)` that delivers `chunk`: the block after the
call, `none` when the bytes written do not lie inside it. -/
def recvInto (data : List Nat) (offset : Nat) (chunk : List Nat) : Option (List Nat) :=
  if offset + chunk.length ≤ data.length then
    some (data.take offset ++ chunk ++ data.drop (offset + chunk.length))
  else none

/-- The `while` loop of `get_response` (lines 77-80 of http.c).  `chunks` are the results of
the successive `recv` calls; an empty chunk or the end of the list is a return value `≤ 0`.
Returns the buffer at the moment the loop is left. -/
def recv_loop (fill : Nat → Nat) (buf : Buffer) : List (List Nat) → Outcome Buffer
  | [] => .done buf
  | chunk :: rest =>
    if chunk.length = 0 then .done buf
    else
      match recvInto buf.data buf.length chunk with
      | none => .undefined
      | some data =>
        -- buf->length += n_bytes_received; buf->data = realloc(buf->data, buf->length + BUF_SIZE);
        recv_loop fill
          { data := realloc data (buf.length + chunk.length + BUF_SIZE) fill
            length := buf.length + chunk.length } rest

/-- Function `get_response` of http.c: the loop, then `buf->data[buf->length] = 0`, which is
undefined when that byte is outside the block. -/
def get_response (fill : Nat → Nat) (buf : Buffer) (chunks : List (List Nat)) : Outcome Buffer :=
  match recv_loop fill buf chunks with
  | .blocked => .blocked
  | .undefined => .undefined
  | .done b =>
    if b.length < b.data.length then .done { b with data := b.data.set b.length 0 }
    else .undefined

/-- The decimal digits of `n` as character codes, most significant first; `fuel` bounds the
number of digits. -/
def digits : Nat → Nat → List Nat
  | 0, _ => []
  | fuel + 1, n => if n < 10 then [48 + n] else digits fuel (n / 10) ++ [48 + n % 10]

/-- The text the `printf` directive `%d` produces for an `int`. -/
def decimal (value : Int) : List Nat :=
  if value < 0 then 45 :: digits (value.natAbs + 1) value.natAbs
  else digits (value.natAbs + 1) value.natAbs

/-- Libc `sprintf(array, ...)` producing `text`: the array afterwards, undefined when the text
and its terminator do not fit in the array. -/
def sprintf (array : List Nat) (text : List Nat) : Outcome (List Nat) :=
  if text.length + 1 ≤ array.length then
    .done (text ++ [0] ++ array.drop (text.length + 1))
  else .undefined

/-- Lines 52-53 and 60 of `addrinfo_init` in http.c: the service string handed to
`getaddrinfo`.  `stack` gives the content of the uninitialised array `port_string`. -/
def addrinfo_init_service (stack : Nat → Nat) (port : Int) : Outcome (List Nat) :=
  -- char port_string[4]; sprintf(port_string, "%d", port);
  let port_string := (List.range 4).map stack
  match sprintf port_string (decimal port) with
  | .blocked => .blocked
  | .undefined => .undefined
  | .done written =>
    -- getaddrinfo(host, port_string, &info, &their_info)
    match cstr written with
    | none => .undefined
    | some service => .done service

/-- The addresses of the chain of elements that starts at `p`, following `next` for at most
`fuel` elements. -/
def Heap.trail (h : Heap) : Nat → Ptr → List Ptr
  | 0, _ => []
  | fuel + 1, p =>
    if p = 0 then [] else
      match h.read p with
      | none => []
      | some e => p :: h.trail fuel e.next

/-- The elements reachable from `queue->first`, head first. -/
def Mem.elements (m : Mem) : List Ptr :=
  m.heap.trail m.heap.cells.length m.queue.first

/-- Capacity 1, one thread: item 10 was put and taken, `last` still points to the freed
element. -/
def drained : State :=
  ⟨⟨⟨0, 1, none, 1, 0⟩, ⟨[]⟩⟩, [.idle]⟩

/-- Capacity 1, one thread: item 10 was put and taken, then item 20 was put; `malloc` has
handed out the address of the freed element again. -/
def refilled : State :=
  ⟨⟨⟨1, 1, none, 0, 1⟩, ⟨[(1, ⟨20, 0⟩)]⟩⟩, [.idle]⟩

/-- A queue of capacity 1 that holds the one item 10, in the element at address 1. -/
def oneItemQueue : Mem :=
  ⟨⟨1, 1, none, 0, 1⟩, ⟨[(1, ⟨10, 0⟩)]⟩⟩

/-- Libc `free(p)` for an item: `blocks` are the allocated item blocks; `NULL` is ignored,
any other pointer must be an allocated block. -/
def freeItem (blocks : List Ptr) (p : Ptr) : Option (List Ptr) :=
  if p = 0 then some blocks
  else if p ∈ blocks then some (blocks.erase p)
  else none

/-- Function `queue_element_free` of queue.c: `free(element->item); free(element);`. -/
def queue_element_free (h : Heap) (blocks : List Ptr) (element : Ptr) :
    Outcome (Heap × List Ptr) :=
  match h.read element with
  | none => .undefined
  | some e =>
    match freeItem blocks e.item with
    | none => .undefined
    | some blocks2 =>
      match h.free element with
      | none => .undefined
      | some h2 => .done (h2, blocks2)

/-- The `for` loop of `queue_free` (lines 80-84 of queue.c) from `current`.  Every pass frees
an element, so `fuel` above the number of allocated elements is never used up. -/
def queue_free_loop : Nat → Heap → List Ptr → Ptr → Outcome (Heap × List Ptr)
  | 0, _, _, _ => .undefined
  | fuel + 1, h, blocks, current =>
    if current = 0 then .done (h, blocks)
    else
      -- previous = current; queue_element_free(previous);
      match queue_element_free h blocks current with
      | .blocked => .blocked
      | .undefined => .undefined
      | .done (h2, blocks2) =>
        -- current = current->next
        match h2.read current with
        | none => .undefined
        | some e => queue_free_loop fuel h2 blocks2 e.next

/-- Function `queue_free` of queue.c: the element blocks and item blocks left when the queue
block itself has been freed. -/
def queue_free (m : Mem) (blocks : List Ptr) : Outcome (Heap × List Ptr) :=
  queue_free_loop (m.heap.cells.length + 1) m.heap blocks m.queue.first

/-- The synchronisation operations of queue.c. -/
inductive SyncOp where
  /-- Call `sem_wait(&queue->spaces_available)`. -/
  | wait_available
  /-- Call `sem_wait(&queue->spaces_taken)`. -/
  | wait_taken
  /-- Call `pthread_mutex_lock(&queue->lock)`. -/
  | lock
  /-- The update of the list, between lock and unlock. -/
  | update
  /-- Call `pthread_mutex_unlock(&queue->lock)`. -/
  | unlock
  /-- Call `sem_post(&queue->spaces_taken)`. -/
  | post_taken
  /-- Call `sem_post(&queue->spaces_available)`. -/
  | post_available
deriving DecidableEq

/-- The synchronisation operations a thread at this program point still performs before its
call returns, the next one first. -/
def remaining : PC → List SyncOp
  | .idle => []
  | .put_wait _ => [.wait_available, .lock, .update, .unlock, .post_taken]
  | .put_lock _ => [.lock, .update, .unlock, .post_taken]
  | .put_update _ => [.update, .unlock, .post_taken]
  | .put_unlock _ => [.unlock, .post_taken]
  | .put_post _ => [.post_taken]
  | .get_wait => [.wait_taken, .lock, .update, .unlock, .post_available]
  | .get_lock => [.lock, .update, .unlock, .post_available]
  | .get_update => [.update, .unlock, .post_available]
  | .get_unlock _ _ => [.unlock, .post_available]
  | .get_post _ _ => [.post_available]
  | .get_free _ _ => []

/-- The synchronisation sequence the claim gives for a call. -/
def callOps : Call → List SyncOp
  | .put _ => [.wait_available, .lock, .update, .unlock, .post_taken]
  | .get => [.wait_taken, .lock, .update, .unlock, .post_available]

/-- What an operation by thread `t` does to the queue struct: `q` before, `q2` after. -/
def performs (op : SyncOp) (t : Nat) (q q2 : Queue) : Prop :=
  match op with
  | .wait_available =>
    q.spaces_available ≠ 0 ∧ q2 = { q with spaces_available := q.spaces_available - 1 }
  | .wait_taken => q.spaces_taken ≠ 0 ∧ q2 = { q with spaces_taken := q.spaces_taken - 1 }
  | .lock => q.lock = none ∧ q2 = { q with lock := some t }
  | .update =>
    q2.lock = q.lock ∧ q2.spaces_available = q.spaces_available ∧
      q2.spaces_taken = q.spaces_taken
  | .unlock => q.lock = some t ∧ q2 = { q with lock := none }
  | .post_taken => q2 = { q with spaces_taken := q.spaces_taken + 1 }
  | .post_available => q2 = { q with spaces_available := q.spaces_available + 1 }

/-- What the step of thread `t` at program point `pc` does: the next program point `pc2` and
the memory `m2` after the step, from the memory `m` before. -/
def Effect (A : Allocator) (t : Nat) (c : Call) (m : Mem) (pc pc2 : PC) (m2 : Mem) : Prop :=
  match pc with
  | .idle =>
    m2 = m ∧ pc2 = (match c with | .put item => PC.put_wait item | .get => PC.get_wait)
  | .put_wait item =>
    m.queue.spaces_available ≠ 0 ∧ pc2 = .put_lock item ∧
      m2 = { m with queue := { m.queue with spaces_available := m.queue.spaces_available - 1 } }
  | .put_lock item =>
    m.queue.lock = none ∧ pc2 = .put_update item ∧
      m2 = { m with queue := { m.queue with lock := some t } }
  | .put_update item => put_section A m item = .done m2 ∧ pc2 = .put_unlock item
  | .put_unlock item =>
    m.queue.lock = some t ∧ pc2 = .put_post item ∧
      m2 = { m with queue := { m.queue with lock := none } }
  | .put_post _ =>
    pc2 = .idle ∧
      m2 = { m with queue := { m.queue with spaces_taken := m.queue.spaces_taken + 1 } }
  | .get_wait =>
    m.queue.spaces_taken ≠ 0 ∧ pc2 = .get_lock ∧
      m2 = { m with queue := { m.queue with spaces_taken := m.queue.spaces_taken - 1 } }
  | .get_lock =>
    m.queue.lock = none ∧ pc2 = .get_update ∧
      m2 = { m with queue := { m.queue with lock := some t } }
  | .get_update => ∃ o item, get_section m = .done (m2, o, item) ∧ pc2 = .get_unlock o item
  | .get_unlock o item =>
    m.queue.lock = some t ∧ pc2 = .get_post o item ∧
      m2 = { m with queue := { m.queue with lock := none } }
  | .get_post o item =>
    pc2 = .get_free o item ∧
      m2 = { m with queue := { m.queue with
        spaces_available := m.queue.spaces_available + 1 } }
  | .get_free o _ => pc2 = .idle ∧ ∃ h, m.heap.free o = some h ∧ m2 = { m with heap := h }

/-- The item in the hands of a call: passed to a `queue_put` that has not linked it yet, or
unlinked by a `queue_get` that has not returned it yet. -/
def carried : PC → Option Ptr
  | .put_wait item | .put_lock item | .put_update item => some item
  | .get_unlock _ item | .get_post _ item | .get_free _ item => some item
  | _ => none

/-- Weight 1 for a thread whose call has item `x` in its hands. -/
def carries (x : Ptr) (pc : PC) : Nat :=
  if carried pc = some x then 1 else 0

/-- What the clients have seen so far: the items passed to `queue_put`, in the order the
calls were made, and the items returned by `queue_get`, in the order the calls returned. -/
structure History where
  puts : List Ptr
  gots : List Ptr

/-- The history after the step of thread `t`: a `queue_put` call that starts adds its item to
`puts`, a `queue_get` call that returns adds its item to `gots`. -/
def record (s : State) (t : Nat) (c : Call) (h : History) : History :=
  match s.threads[t]?, c with
  | some .idle, .put item => { h with puts := h.puts ++ [item] }
  | some (.get_free _ item), _ => { h with gots := h.gots ++ [item] }
  | _, _ => h

/-- The executions from `queue_alloc(size)` with `T` threads: a reachable state together with
the history of the calls that led to it. -/
inductive Execution (size : Int) (raw : Queue) (T : Nat) : State → History → Prop where
  | init : Execution size raw T (State.init size raw T) ⟨[], []⟩
  | step {s s2 : State} {h : History} (A : Allocator) (t : Nat) (c : Call) :
      Execution size raw T s h → stepThread A s t c = .done s2 →
      Execution size raw T s2 (record s t c h)

/-- Running a schedule and recording the history. -/
def runHistory (A : Allocator) (s : State) (h : History) :
    List (Nat × Call) → Outcome (State × History)
  | [] => .done (s, h)
  | (t, c) :: rest =>
    match stepThread A s t c with
    | .done s2 => runHistory A s2 (record s t c h) rest
    | .blocked => .blocked
    | .undefined => .undefined

/-- Capacity 2, two producers and one consumer: the puts of 10 and 20 overlap, 20 is linked
first; then the consumer takes both. -/
def twoProducers : List (Nat × Call) :=
  [(0, .put 10), (1, .put 20), (1, .get), (0, .get), (1, .get), (1, .get), (1, .get),
   (0, .get), (0, .get), (0, .get), (0, .get), (1, .get)]
  ++ List.replicate 7 (2, .get) ++ List.replicate 7 (2, .get)

/-- The state after the schedule `twoProducers`. -/
def afterTwoProducers : State :=
  ⟨⟨⟨0, 2, none, 2, 0⟩, ⟨[]⟩⟩, [.idle, .idle, .idle]⟩

/-- Every item passed to `queue_put` is on the list, in the hands of a call, or has been
returned by a `queue_get`: each as often as it was passed. -/
def Balanced (s : State) (h : History) : Prop :=
  ∀ x : Ptr, h.puts.count x
    = s.mem.items.count x + tally (carries x) s.threads + h.gots.count x

/-! ## Predicates used in the proofs -/

/-- The chain starting at pointer `p` consists of exactly the blocks `cells` (address and
item of each, head first) and ends with a `NULL` link. -/
def Chain (h : Heap) : Ptr → List (Ptr × Ptr) → Prop
  | p, [] => p = 0
  | p, c :: rest => p = c.1 ∧ c.1 ≠ 0 ∧ ∃ nxt, h.read c.1 = some ⟨c.2, nxt⟩ ∧ Chain h nxt rest

/-- The list of the queue is well formed: `first` starts a chain of distinct blocks and, when
the chain is not empty, `last` is its final block. -/
structure ListOK (m : Mem) (cells : List (Ptr × Ptr)) : Prop where
  chain : Chain m.heap m.queue.first cells
  nodup : (cells.map Prod.fst).Nodup
  last : ∀ c, cells.getLast? = some c → m.queue.last = c.1

/-- Memory `m` represents a quiescent queue of capacity `N` holding `items`. -/
def Rep (N : Nat) (m : Mem) (items : List Ptr) : Prop :=
  ∃ cells, ListOK m cells ∧ cells.map Prod.snd = items ∧ m.queue.lock = none ∧
    m.queue.spaces_taken = items.length ∧ m.queue.spaces_available + items.length = N

/-- The memory part of the invariant: the list is well formed; an unlinked element waiting
to be freed is still allocated and no longer on the chain; no two threads wait to free the
same element. -/
structure MemInv (m : Mem) (threads : List PC) (cells : List (Ptr × Ptr)) : Prop where
  list : ListOK m cells
  out_alloc : ∀ (t : Nat) (pc : PC) (o : Ptr), threads[t]? = some pc → outgoingOf pc = some o →
    m.heap.read o ≠ none ∧ o ∉ cells.map Prod.fst
  out_distinct : ∀ (t u : Nat) (pc pd : PC) (o : Ptr), threads[t]? = some pc →
    threads[u]? = some pd → outgoingOf pc = some o → outgoingOf pd = some o → t = u

/-- The mutex part of the invariant: the mutex is held by exactly the thread that is between
its lock and its unlock. -/
def LockInv (q : Queue) (threads : List PC) : Prop :=
  ∀ t : Nat, q.lock = some t ↔ ∃ pc, threads[t]? = some pc ∧ holdsLock pc = true

/-- The counting part of the invariant for a chain of `len` elements. -/
structure CountInv (N : Nat) (q : Queue) (threads : List PC) (len : Nat) : Prop where
  /-- every space is free, taken, or in the hands of a call between its wait and its post -/
  sems : q.spaces_available + q.spaces_taken + tally reserved threads + tally added threads
    + tally claimed threads + tally removed threads = N
  /-- the elements on the chain: those announced by `spaces_taken`, those linked but not yet
  announced, and those claimed by a get but not yet unlinked -/
  len : len = q.spaces_taken + tally added threads + tally claimed threads

/-- The invariant of every reachable state of a queue of capacity `N` whose chain consists of
the blocks `cells`. -/
structure Inv (N : Nat) (s : State) (cells : List (Ptr × Ptr)) : Prop where
  mem : MemInv s.mem s.threads cells
  lock : LockInv s.mem.queue s.threads
  count : CountInv N s.mem.queue s.threads cells.length

/-! ## Heap lemmas -/

theorem Heap.read_erase (h : Heap) (p q : Ptr) :
    (h.erase p).read q = if q = p then none else h.read q := by
  unfold Heap.read Heap.erase
  cases h with
  | mk cells =>
    induction cells with
    | nil => simp
    | cons c cs ih =>
      simp only [List.filter_cons]
      by_cases hc : c.1 = p
      · by_cases hq : q = p
        · simp_all
        · have hcq : ¬ c.1 = q := fun e => hq (by rw [← e]; exact hc)
          simp_all
      · by_cases hq : q = p
        · simp_all
        · by_cases hcq : c.1 = q <;> simp_all

theorem Heap.read_write (h : Heap) (p q : Ptr) (e : QueueElement) :
    (h.write p e).read q = if q = p then some e else h.read q := by
  have := Heap.read_erase h p q
  unfold Heap.read at this ⊢
  unfold Heap.write
  by_cases hq : q = p
  · subst hq
    simp
  · have hpq : ¬ p = q := fun e => hq e.symm
    simp_all [List.find?_cons]

theorem Heap.free_eq (h : Heap) (p : Ptr) (e : QueueElement) (hp : h.read p = some e) :
    h.free p = some (h.erase p) := by
  simp [Heap.free, hp]

/-! ## The linked list behind the queue -/

theorem Chain.frame {h h2 : Heap} {cells : List (Ptr × Ptr)} :
    ∀ {p : Ptr}, Chain h p cells → (∀ a ∈ cells.map Prod.fst, h2.read a = h.read a) →
      Chain h2 p cells := by
  induction cells with
  | nil => intro p hc _; exact hc
  | cons c rest ih =>
    intro p hc hsame
    obtain ⟨hp, hnz, nxt, hr, hrest⟩ := hc
    refine ⟨hp, hnz, nxt, ?_, ih hrest ?_⟩
    · rw [hsame c.1 (by simp)]; exact hr
    · intro a ha
      exact hsame a (by simp only [List.map_cons, List.mem_cons]; exact Or.inr ha)

theorem Chain.allocated {h : Heap} {cells : List (Ptr × Ptr)} :
    ∀ {p : Ptr}, Chain h p cells → ∀ a ∈ cells.map Prod.fst, h.read a ≠ none := by
  induction cells with
  | nil => intro p _ a ha; simp at ha
  | cons c rest ih =>
    intro p hc a ha
    obtain ⟨_, _, nxt, hr, hrest⟩ := hc
    simp only [List.map_cons, List.mem_cons] at ha
    rcases ha with rfl | ha
    · rw [hr]; simp
    · exact ih hrest a ha

theorem Chain.first_eq_zero_iff {h : Heap} {cells : List (Ptr × Ptr)} {p : Ptr}
    (hc : Chain h p cells) : p = 0 ↔ cells = [] := by
  cases cells with
  | nil => simpa [Chain] using hc
  | cons c rest =>
    obtain ⟨hp, hnz, _⟩ := hc
    simp [hp, hnz]

/-- Appending a block to a chain whose final block is `l`: the old final block gets the new
address as its link. -/
theorem Chain.snoc {h : Heap} {l x n y : Ptr} {cells : List (Ptr × Ptr)} :
    ∀ {p : Ptr}, Chain h p (cells ++ [(l, x)]) → ((cells ++ [(l, x)]).map Prod.fst).Nodup →
      n ≠ 0 → h.read n = none →
      Chain ((h.write n ⟨y, 0⟩).write l ⟨x, n⟩) p (cells ++ [(l, x)] ++ [(n, y)]) := by
  induction cells with
  | nil =>
    intro p hc _ hn hfresh
    obtain ⟨hp, hnz, nxt, hr, _⟩ := hc
    have hnl : n ≠ l := by
      intro e; rw [e] at hfresh; rw [hfresh] at hr; cases hr
    refine ⟨hp, hnz, n, by simp [Heap.read_write], rfl, hn, 0, ?_, rfl⟩
    simp [Heap.read_write, hnl]
  | cons c rest ih =>
    intro p hc hnd hn hfresh
    obtain ⟨hp, hnz, nxt, hr, hrest⟩ := hc
    simp only [List.cons_append, List.map_cons, List.nodup_cons] at hnd
    refine ⟨hp, hnz, nxt, ?_, ih hrest hnd.2 hn hfresh⟩
    have hcl : c.1 ≠ l := by
      intro e; apply hnd.1; simp [e]
    have hcn : c.1 ≠ n := by
      intro e; rw [← e] at hfresh; rw [hfresh] at hr; cases hr
    simp [Heap.read_write, hcl, hcn, hr]

theorem Chain.walk {h : Heap} {cells : List (Ptr × Ptr)} :
    ∀ {p : Ptr} (fuel : Nat), Chain h p cells → cells.length ≤ fuel →
      h.walk fuel p = cells.map Prod.snd := by
  induction cells with
  | nil =>
    intro p fuel hc _
    have : p = 0 := hc
    subst this
    cases fuel <;> simp [Heap.walk]
  | cons c rest ih =>
    intro p fuel hc hlen
    obtain ⟨hp, hnz, nxt, hr, hrest⟩ := hc
    cases fuel with
    | zero => simp at hlen
    | succ fuel =>
      subst hp
      simp only [List.length_cons, Nat.add_le_add_iff_right] at hlen
      simp [Heap.walk, hnz, hr, ih fuel hrest hlen]

theorem Heap.mem_keys_of_read {h : Heap} {a : Ptr} (ha : h.read a ≠ none) :
    a ∈ h.cells.map Prod.fst := by
  unfold Heap.read at ha
  cases hf : h.cells.find? (fun c => c.1 == a) with
  | none => simp [hf] at ha
  | some c =>
    have hmem := List.mem_of_find?_eq_some hf
    have hkey := List.find?_some hf
    simp only [beq_iff_eq] at hkey
    exact List.mem_map.mpr ⟨c, hmem, hkey⟩

theorem Chain.length_le {h : Heap} {cells : List (Ptr × Ptr)} {p : Ptr}
    (hc : Chain h p cells) (hnd : (cells.map Prod.fst).Nodup) :
    cells.length ≤ h.cells.length := by
  have hsub : cells.map Prod.fst ⊆ h.cells.map Prod.fst :=
    fun a ha => Heap.mem_keys_of_read (hc.allocated a ha)
  have := (List.subperm_of_subset hnd hsub).length_le
  simpa using this

/-- The executable walk from `first` lists exactly the items of the chain. -/
theorem ListOK.items_eq {m : Mem} {cells : List (Ptr × Ptr)} (ok : ListOK m cells) :
    m.items = cells.map Prod.snd :=
  ok.chain.walk _ (ok.chain.length_le ok.nodup)

theorem ListOK.count_eq {m : Mem} {cells : List (Ptr × Ptr)} (ok : ListOK m cells) :
    m.count = cells.length := by
  simp [Mem.count, ok.items_eq]

theorem Chain.read_last {h : Heap} {l x : Ptr} {cells : List (Ptr × Ptr)} :
    ∀ {p : Ptr}, Chain h p (cells ++ [(l, x)]) → h.read l = some ⟨x, 0⟩ := by
  induction cells with
  | nil =>
    intro p hc
    obtain ⟨_, _, nxt, hr, hn⟩ := hc
    have : nxt = 0 := hn
    rw [hr, this]
  | cons c rest ih =>
    intro p hc
    obtain ⟨_, _, nxt, _, hrest⟩ := hc
    exact ih hrest

theorem ListOK.congr {m m2 : Mem} {cells : List (Ptr × Ptr)} (ok : ListOK m cells)
    (hh : m2.heap = m.heap) (hf : m2.queue.first = m.queue.first)
    (hl : m2.queue.last = m.queue.last) : ListOK m2 cells :=
  ⟨by rw [hh, hf]; exact ok.chain, ok.nodup, by rw [hl]; exact ok.last⟩

/-- The locked section of `queue_put` never fails on a well-formed list and appends one
block, at the address `malloc` returned, holding the item. -/
theorem put_section_spec (A : Allocator) (m : Mem) (item : Ptr) (cells : List (Ptr × Ptr))
    (ok : ListOK m cells) :
    ∃ m2, put_section A m item = .done m2 ∧
      ListOK m2 (cells ++ [(A.malloc m.heap, item)]) ∧
      m2.queue.lock = m.queue.lock ∧
      m2.queue.spaces_available = m.queue.spaces_available ∧
      m2.queue.spaces_taken = m.queue.spaces_taken ∧
      (∀ a, m.heap.read a ≠ none → m2.heap.read a ≠ none) := by
  have hn := A.nonnull m.heap
  have hfresh := A.fresh m.heap
  rcases List.eq_nil_or_concat cells with hnil | ⟨init, c, hcons⟩
  · subst hnil
    have hfirst : m.queue.first = 0 := ok.chain
    refine ⟨⟨{ m.queue with first := A.malloc m.heap, last := A.malloc m.heap },
        m.heap.write (A.malloc m.heap) ⟨item, 0⟩⟩, ?_, ?_, rfl, rfl, rfl, ?_⟩
    · simp [put_section, hfirst, new_queue_element]
    · refine ⟨⟨rfl, hn, 0, by simp [Heap.read_write], rfl⟩, by simp, ?_⟩
      intro c hc
      simp at hc
      subst hc
      rfl
    · intro a ha
      simp only [Heap.read_write]
      split
      · simp
      · exact ha
  · obtain ⟨l, x⟩ := c
    simp only [List.concat_eq_append] at hcons
    subst hcons
    have hfirst : m.queue.first ≠ 0 := by
      intro e
      have := (ok.chain.first_eq_zero_iff).mp e
      simp at this
    have hlast : m.queue.last = l := ok.last (l, x) (by simp)
    have hrl := ok.chain.read_last
    have hln : l ≠ A.malloc m.heap := by
      intro e; rw [← e, hrl] at hfresh; cases hfresh
    refine ⟨⟨{ m.queue with last := A.malloc m.heap },
        (m.heap.write (A.malloc m.heap) ⟨item, 0⟩).write l ⟨x, A.malloc m.heap⟩⟩, ?_, ?_,
        rfl, rfl, rfl, ?_⟩
    · simp [put_section, hfirst, new_queue_element, hlast, Heap.read_write, hln, hrl]
    · refine ⟨ok.chain.snoc ok.nodup hn hfresh, ?_, ?_⟩
      · have hnd := ok.nodup
        rw [List.map_append, List.nodup_append]
        refine ⟨hnd, by simp, ?_⟩
        intro a ha hb
        simp only [List.map_cons, List.map_nil, List.mem_singleton] at hb
        subst hb
        exact ok.chain.allocated _ ha hfresh
      · intro c hc
        simp at hc
        subst hc
        rfl
    · intro a ha
      simp only [Heap.read_write]
      split
      · simp
      · split
        · simp
        · exact ha

/-- On a well-formed non-empty list the locked section of `queue_get` never fails: it takes
the head block off the chain and reads its item. -/
theorem get_section_spec (m : Mem) (c : Ptr × Ptr) (rest : List (Ptr × Ptr))
    (ok : ListOK m (c :: rest)) :
    ∃ m2, get_section m = .done (m2, c.1, c.2) ∧ ListOK m2 rest ∧ m2.heap = m.heap ∧
      m2.queue.lock = m.queue.lock ∧
      m2.queue.spaces_available = m.queue.spaces_available ∧
      m2.queue.spaces_taken = m.queue.spaces_taken ∧
      m.heap.read c.1 ≠ none ∧ c.1 ∉ rest.map Prod.fst := by
  obtain ⟨hp, hnz, nxt, hr, hrest⟩ := ok.chain
  have hnd := ok.nodup
  simp only [List.map_cons, List.nodup_cons] at hnd
  refine ⟨{ m with queue := { m.queue with first := nxt } }, ?_, ⟨hrest, hnd.2, ?_⟩, rfl, rfl,
    rfl, rfl, by rw [hr]; simp, hnd.1⟩
  · simp [get_section, hp, hr]
  · intro c2 hc2
    apply ok.last
    cases rest with
    | nil => simp at hc2
    | cons d ds => simpa [List.getLast?_cons_cons] using hc2

/-- Freeing a block that is not on the chain keeps the list well formed. -/
theorem ListOK.erase {m : Mem} {cells : List (Ptr × Ptr)} (ok : ListOK m cells) (o : Ptr)
    (ho : o ∉ cells.map Prod.fst) : ListOK { m with heap := m.heap.erase o } cells := by
  refine ⟨ok.chain.frame ?_, ok.nodup, ok.last⟩
  intro a ha
  have : a ≠ o := fun e => ho (e ▸ ha)
  simp [Heap.read_erase, this]

/-! ## Sequential runs -/

theorem sem_init_of_le (old N : Nat) (h : N ≤ 2147483647) : sem_init old (N : Int) = N := by
  unfold sem_init SEM_VALUE_MAX
  have h1 : ((N : Int) % 4294967296).toNat = N := by omega
  simp only [h1]
  simp [h]

theorem Rep.of_alloc (N : Nat) (raw : Queue) (h : N ≤ 2147483647) : Rep N (Mem.init N raw) [] := by
  refine ⟨[], ⟨rfl, by simp, by simp⟩, rfl, rfl, ?_, ?_⟩
  · show sem_init raw.spaces_taken 0 = 0
    exact sem_init_of_le _ 0 (by omega)
  · show sem_init raw.spaces_available N + 0 = N
    rw [sem_init_of_le _ N h]
    rfl

theorem queue_put_spec (A : Allocator) (self N : Nat) (m : Mem) (items : List Ptr) (x : Ptr)
    (rep : Rep N m items) (hlt : items.length < N) :
    ∃ m2, queue_put A self m x = .done m2 ∧ Rep N m2 (items ++ [x]) := by
  obtain ⟨cells, ok, hitems, hlock, hst, hsa⟩ := rep
  have hpos : m.queue.spaces_available ≠ 0 := by omega
  obtain ⟨m2, hsec, ok2, h1, h2, h3, _⟩ := put_section_spec A
    { m with queue := { m.queue with
        spaces_available := m.queue.spaces_available - 1, lock := some self } } x cells
    (ok.congr rfl rfl rfl)
  refine ⟨{ m2 with queue := { m2.queue with
      lock := none, spaces_taken := sem_post m2.queue.spaces_taken } }, ?_, ?_⟩
  · simp only [queue_put, sem_wait, hpos, if_false, pthread_mutex_lock, hlock, hsec,
      pthread_mutex_unlock, h1]
    simp
  · refine ⟨_, ok2.congr rfl rfl rfl, by simp [hitems], rfl, ?_, ?_⟩
    · show sem_post m2.queue.spaces_taken = _
      rw [h3]; simp [sem_post, hst]
    · show m2.queue.spaces_available + _ = N
      rw [h2]; simp; omega

theorem queue_put_blocks (A : Allocator) (self N : Nat) (m : Mem) (items : List Ptr) (x : Ptr)
    (rep : Rep N m items) (hfull : items.length = N) : queue_put A self m x = .blocked := by
  obtain ⟨cells, ok, hitems, hlock, hst, hsa⟩ := rep
  have hz : m.queue.spaces_available = 0 := by omega
  simp [queue_put, sem_wait, hz]

theorem queue_get_spec (self N : Nat) (m : Mem) (items : List Ptr) (x : Ptr)
    (rep : Rep N m (x :: items)) :
    ∃ m2, queue_get self m = .done (m2, x) ∧ Rep N m2 items := by
  obtain ⟨cells, ok, hitems, hlock, hst, hsa⟩ := rep
  cases cells with
  | nil => simp at hitems
  | cons c rest =>
    simp only [List.map_cons, List.cons.injEq] at hitems
    have hpos : m.queue.spaces_taken ≠ 0 := by simp [hst]
    obtain ⟨m2, hsec, ok2, hh, h1, h2, h3, halloc, hnotin⟩ := get_section_spec
      { m with queue := { m.queue with
          spaces_taken := m.queue.spaces_taken - 1, lock := some self } } c rest
      (ok.congr rfl rfl rfl)
    obtain ⟨e, he⟩ := Option.ne_none_iff_exists'.mp halloc
    have hfree : m2.heap.free c.1 = some (m2.heap.erase c.1) :=
      Heap.free_eq _ _ e (by rw [hh]; exact he)
    refine ⟨⟨{ m2.queue with
      lock := none, spaces_available := sem_post m2.queue.spaces_available },
      m2.heap.erase c.1⟩, ?_, ?_⟩
    · simp only [queue_get, sem_wait, hpos, if_false, pthread_mutex_lock, hlock, hsec,
        pthread_mutex_unlock, h1]
      simp [hfree, hitems.1]
    · refine ⟨rest, (ok2.erase c.1 hnotin).congr rfl rfl rfl, hitems.2, rfl, ?_, ?_⟩
      · show m2.queue.spaces_taken = _
        rw [h3]; simp [hst]
      · show sem_post m2.queue.spaces_available + _ = N
        rw [h2]; simp [sem_post]; simp at hsa; omega

theorem queue_get_blocks (self N : Nat) (m : Mem) (rep : Rep N m []) :
    queue_get self m = .blocked := by
  obtain ⟨cells, ok, hitems, hlock, hst, hsa⟩ := rep
  have hz : m.queue.spaces_taken = 0 := by simpa using hst
  simp [queue_get, sem_wait, hz]

/-- A run in which no call blocks finishes; its gets return, in order, the items at the front
of "what was held, then what was put", and the queue ends up holding the rest. -/
theorem run_spec (A : Allocator) (self N : Nat) (ops : List Call) :
    ∀ (m : Mem) (items : List Ptr), Rep N m items → noCallBlocks N items.length ops →
      ∃ m2 outs items2, run A self m ops = .done (m2, outs) ∧ Rep N m2 items2 ∧
        items ++ puts ops = outs ++ items2 ∧ outs.length = gets ops := by
  induction ops with
  | nil =>
    intro m items rep _
    exact ⟨m, [], items, rfl, rep, by simp [puts], rfl⟩
  | cons op rest ih =>
    intro m items rep hnb
    cases op with
    | put x =>
      obtain ⟨hlt, hrest⟩ := hnb
      obtain ⟨m1, hput, rep1⟩ := queue_put_spec A self N m items x rep hlt
      obtain ⟨m2, outs, items2, hrun, rep2, heq, hlen⟩ :=
        ih m1 (items ++ [x]) rep1 (by simpa using hrest)
      refine ⟨m2, outs, items2, by simp [run, hput, hrun], rep2, ?_, by simpa [gets] using hlen⟩
      simpa [puts] using heq
    | get =>
      obtain ⟨hpos, hrest⟩ := hnb
      cases items with
      | nil => simp at hpos
      | cons x items =>
        obtain ⟨m1, hget, rep1⟩ := queue_get_spec self N m items x rep
        obtain ⟨m2, outs, items2, hrun, rep2, heq, hlen⟩ :=
          ih m1 items rep1 (by simpa using hrest)
        refine ⟨m2, x :: outs, items2, by simp [run, hget, hrun], rep2, ?_,
          by simpa [gets] using hlen⟩
        simpa [puts] using heq

theorem noCallBlocks_puts_gets (N : Nat) (items : List Ptr) :
    ∀ (held k : Nat), held + items.length ≤ N → k ≤ held + items.length →
      noCallBlocks N held (items.map Call.put ++ List.replicate k Call.get) := by
  induction items with
  | nil =>
    intro held k _ hk
    induction k generalizing held with
    | zero => trivial
    | succ k ih =>
      simp only [List.length_nil, Nat.add_zero] at hk
      exact ⟨by omega, ih (held - 1) (by simp; omega) (by simp; omega)⟩
  | cons x rest ih =>
    intro held k hN hk
    simp only [List.length_cons] at hN hk
    exact ⟨by omega, ih (held + 1) k (by omega) (by omega)⟩

theorem puts_puts_gets (items : List Ptr) (k : Nat) :
    puts (items.map Call.put ++ List.replicate k Call.get) = items := by
  induction items with
  | nil => induction k with
    | zero => rfl
    | succ k ih => simpa [List.replicate_succ, puts] using ih
  | cons x rest ih => simpa [puts] using ih

theorem gets_puts_gets (items : List Ptr) (k : Nat) :
    gets (items.map Call.put ++ List.replicate k Call.get) = k := by
  induction items with
  | nil => induction k with
    | zero => rfl
    | succ k ih => simpa [List.replicate_succ, gets] using ih
  | cons x rest ih => simpa [gets] using ih

/-- A queue memory that represents `items` holds them, in order, on the chain from `first`. -/
theorem Rep.holds {N : Nat} {m : Mem} {items : List Ptr} (rep : Rep N m items) :
    m.items = items := by
  obtain ⟨cells, ok, hitems, _⟩ := rep
  rw [ok.items_eq, hitems]

theorem Rep.first_eq_zero {N : Nat} {m : Mem} (rep : Rep N m []) : m.queue.first = 0 := by
  obtain ⟨cells, ok, hitems, _⟩ := rep
  have : cells = [] := by simpa using hitems
  exact ok.chain.first_eq_zero_iff.mpr this

/-- Filling an empty queue with `items` (at most `N` of them) and taking them all out again:
the gets return `items` in order and the queue is empty again. -/
theorem run_fill_drain (A : Allocator) (self N : Nat) (m : Mem) (items : List Ptr)
    (rep : Rep N m []) (hlen : items.length ≤ N) :
    ∃ m2, run A self m (items.map Call.put ++ List.replicate items.length Call.get)
        = .done (m2, items) ∧ Rep N m2 [] := by
  obtain ⟨m2, outs, items2, hrun, rep2, heq, hlen2⟩ := run_spec A self N _ m [] rep
    (noCallBlocks_puts_gets N items 0 items.length (by simpa using hlen) (by simp))
  rw [puts_puts_gets, gets_puts_gets] at *
  simp only [List.nil_append] at heq
  have h2 : items2 = [] := by
    have := congrArg List.length heq
    simp only [List.length_append] at this
    exact List.length_eq_zero.mp (by omega)
  subst h2
  simp only [List.append_nil] at heq
  subst heq
  exact ⟨m2, hrun, rep2⟩

/-! ## The invariant of the concurrent queue -/

theorem get_set_threads {l : List PC} {t : Nat} {pc : PC} (h : l[t]? = some pc) (pc2 : PC)
    (u : Nat) : (l.set t pc2)[u]? = if u = t then some pc2 else l[u]? := by
  obtain ⟨hlt, _⟩ := List.getElem?_eq_some.mp h
  by_cases hu : u = t
  · subst hu
    simp [hlt]
  · have : t ≠ u := fun e => hu e.symm
    simp [hu, List.getElem?_set_ne this]

theorem tally_set (w : PC → Nat) {l : List PC} {t : Nat} {pc : PC} (h : l[t]? = some pc)
    (pc2 : PC) : tally w (l.set t pc2) + w pc = tally w l + w pc2 := by
  unfold tally
  induction l generalizing t with
  | nil => simp at h
  | cons x xs ih =>
    cases t with
    | zero =>
      simp only [List.getElem?_cons_zero, Option.some.injEq] at h
      subst h
      simp only [List.set_cons_zero, List.map_cons, List.sum_cons]
      omega
    | succ t =>
      simp only [List.getElem?_cons_succ] at h
      have := ih h
      simp only [List.set_cons_succ, List.map_cons, List.sum_cons]
      omega

theorem tally_ge (w : PC → Nat) {l : List PC} {t : Nat} {pc : PC} (h : l[t]? = some pc) :
    w pc ≤ tally w l := by
  unfold tally
  induction l generalizing t with
  | nil => simp at h
  | cons x xs ih =>
    cases t with
    | zero =>
      simp only [List.getElem?_cons_zero, Option.some.injEq] at h
      subst h
      simp
    | succ t =>
      simp only [List.getElem?_cons_succ] at h
      have := ih h
      simp only [List.map_cons, List.sum_cons]
      omega

theorem tally_replicate_idle (w : PC → Nat) (hw : w .idle = 0) (T : Nat) :
    tally w (List.replicate T .idle) = 0 := by
  unfold tally
  induction T with
  | zero => rfl
  | succ T ih => simp [List.replicate_succ, hw, ih]

theorem tally_inFlight (l : List PC) :
    tally inFlight l = tally reserved l + tally added l + tally claimed l + tally removed l := by
  unfold tally
  induction l with
  | nil => rfl
  | cons x xs ih =>
    simp only [List.map_cons, List.sum_cons, ih]
    cases x <;> simp [inFlight, reserved, added, claimed, removed] <;> omega

theorem Inv.init (N : Nat) (raw : Queue) (T : Nat) (hN : N ≤ 2147483647) :
    Inv N (State.init N raw T) [] := by
  have hsa : (queue_alloc N raw).spaces_available = N := sem_init_of_le _ N hN
  have hst : (queue_alloc N raw).spaces_taken = 0 :=
    sem_init_of_le raw.spaces_taken 0 (by omega)
  have hidle : ∀ (t : Nat) (pc : PC), (List.replicate T PC.idle)[t]? = some pc →
      pc = PC.idle := by
    intro t pc h
    rw [List.getElem?_replicate] at h
    split at h
    · exact (Option.some.inj h).symm
    · cases h
  refine ⟨⟨⟨rfl, by simp, by simp⟩, ?_, ?_⟩, ?_, ⟨?_, ?_⟩⟩
  · intro t pc o h ho
    rw [hidle t pc h] at ho
    cases ho
  · intro t u pc pd o h _ ho _
    rw [hidle t pc h] at ho
    cases ho
  · intro t
    constructor
    · intro h
      cases h
    · rintro ⟨pc, h, hl⟩
      rw [hidle t pc h] at hl
      cases hl
  · show (queue_alloc N raw).spaces_available + (queue_alloc N raw).spaces_taken
      + tally reserved (List.replicate T .idle) + tally added (List.replicate T .idle)
      + tally claimed (List.replicate T .idle) + tally removed (List.replicate T .idle) = N
    rw [hsa, hst, tally_replicate_idle _ rfl, tally_replicate_idle _ rfl,
      tally_replicate_idle _ rfl, tally_replicate_idle _ rfl]
    rfl
  · show 0 = (queue_alloc N raw).spaces_taken + tally added (List.replicate T .idle)
      + tally claimed (List.replicate T .idle)
    rw [hst, tally_replicate_idle _ rfl, tally_replicate_idle _ rfl]

/-- After thread `t` moves from `pc` to `pc2`, what any thread waits to free is what it (or,
for `t`, the new program point) says. -/
theorem outgoing_after_set {threads : List PC} {t : Nat} {pc : PC}
    (hpc : threads[t]? = some pc) (pc2 : PC) {u : Nat} {pd : PC}
    (h : (threads.set t pc2)[u]? = some pd) :
    (u = t ∧ pd = pc2) ∨ (u ≠ t ∧ threads[u]? = some pd) := by
  rw [get_set_threads hpc] at h
  by_cases hu : u = t
  · simp only [hu, if_true, Option.some.injEq] at h
    exact Or.inl ⟨hu, h.symm⟩
  · simp only [hu, if_false] at h
    exact Or.inr ⟨hu, h⟩

theorem MemInv.keep {m m2 : Mem} {threads : List PC} {cells : List (Ptr × Ptr)}
    (inv : MemInv m threads cells) {t : Nat} {pc : PC} (hpc : threads[t]? = some pc) (pc2 : PC)
    (hout : outgoingOf pc2 = outgoingOf pc) (hh : m2.heap = m.heap)
    (hf : m2.queue.first = m.queue.first) (hl : m2.queue.last = m.queue.last) :
    MemInv m2 (threads.set t pc2) cells := by
  have old : ∀ (u : Nat) (pd : PC), (threads.set t pc2)[u]? = some pd →
      ∃ pe, threads[u]? = some pe ∧ outgoingOf pe = outgoingOf pd := by
    intro u pd h
    rcases outgoing_after_set hpc pc2 h with ⟨hu, hpd⟩ | ⟨_, h⟩
    · exact ⟨pc, hu ▸ hpc, by rw [hpd, hout]⟩
    · exact ⟨pd, h, rfl⟩
  refine ⟨inv.list.congr hh hf hl, ?_, ?_⟩
  · intro u pd o h ho
    obtain ⟨pe, hpe, hoe⟩ := old u pd h
    rw [hh]
    exact inv.out_alloc u pe o hpe (hoe ▸ ho)
  · intro u v pd pe o hu hv hou hov
    obtain ⟨pd2, hpd2, hod⟩ := old u pd hu
    obtain ⟨pe2, hpe2, hoe⟩ := old v pe hv
    exact inv.out_distinct u v pd2 pe2 o hpd2 hpe2 (hod ▸ hou) (hoe ▸ hov)

theorem MemInv.put {m : Mem} {threads : List PC} {cells : List (Ptr × Ptr)}
    (inv : MemInv m threads cells) {t : Nat} {pc : PC} (hpc : threads[t]? = some pc) (pc2 : PC)
    (hout : outgoingOf pc2 = none) (A : Allocator) (item : Ptr) :
    ∃ m2, put_section A m item = .done m2 ∧
      MemInv m2 (threads.set t pc2) (cells ++ [(A.malloc m.heap, item)]) ∧
      m2.queue.lock = m.queue.lock ∧
      m2.queue.spaces_available = m.queue.spaces_available ∧
      m2.queue.spaces_taken = m.queue.spaces_taken := by
  obtain ⟨m2, hsec, ok2, h1, h2, h3, halloc⟩ := put_section_spec A m item cells inv.list
  have old : ∀ (u : Nat) (pd : PC) (o : Ptr), (threads.set t pc2)[u]? = some pd →
      outgoingOf pd = some o → u ≠ t ∧ threads[u]? = some pd := by
    intro u pd o h ho
    rcases outgoing_after_set hpc pc2 h with ⟨_, hpd⟩ | h
    · rw [hpd, hout] at ho; cases ho
    · exact h
  refine ⟨m2, hsec, ⟨ok2, ?_, ?_⟩, h1, h2, h3⟩
  · intro u pd o h ho
    obtain ⟨_, hu⟩ := old u pd o h ho
    obtain ⟨ha, hni⟩ := inv.out_alloc u pd o hu ho
    refine ⟨halloc o ha, ?_⟩
    simp only [List.map_append, List.map_cons, List.map_nil, List.mem_append,
      List.mem_singleton, not_or]
    refine ⟨hni, ?_⟩
    intro e
    rw [e] at ha
    exact ha (A.fresh m.heap)
  · intro u v pd pe o hu hv hou hov
    exact inv.out_distinct u v pd pe o (old u pd o hu hou).2 (old v pe o hv hov).2 hou hov

theorem MemInv.get {m : Mem} {threads : List PC} {c : Ptr × Ptr} {rest : List (Ptr × Ptr)}
    (inv : MemInv m threads (c :: rest)) {t : Nat} {pc : PC} (hpc : threads[t]? = some pc)
    (pc2 : PC) (hout : outgoingOf pc2 = some c.1) :
    ∃ m2, get_section m = .done (m2, c.1, c.2) ∧ MemInv m2 (threads.set t pc2) rest ∧
      m2.queue.lock = m.queue.lock ∧
      m2.queue.spaces_available = m.queue.spaces_available ∧
      m2.queue.spaces_taken = m.queue.spaces_taken := by
  obtain ⟨m2, hsec, ok2, hh, h1, h2, h3, halloc, hnotin⟩ := get_section_spec m c rest inv.list
  have notold : ∀ (u : Nat) (pd : PC), threads[u]? = some pd → outgoingOf pd ≠ some c.1 := by
    intro u pd hu ho
    exact (inv.out_alloc u pd c.1 hu ho).2 (by simp)
  refine ⟨m2, hsec, ⟨ok2, ?_, ?_⟩, h1, h2, h3⟩
  · intro u pd o h ho
    rw [hh]
    rcases outgoing_after_set hpc pc2 h with ⟨_, hpd⟩ | ⟨_, hu⟩
    · rw [hpd, hout] at ho
      cases ho
      exact ⟨halloc, hnotin⟩
    · obtain ⟨ha, hni⟩ := inv.out_alloc u pd o hu ho
      refine ⟨ha, fun hmem => hni ?_⟩
      simp only [List.map_cons, List.mem_cons]
      exact Or.inr hmem
  · intro u v pd pe o hu hv hou hov
    rcases outgoing_after_set hpc pc2 hu with ⟨hut, hpd⟩ | ⟨_, hu2⟩
    · rcases outgoing_after_set hpc pc2 hv with ⟨hvt, _⟩ | ⟨_, hv2⟩
      · rw [hut, hvt]
      · rw [hpd, hout] at hou
        cases hou
        exact absurd hov (notold v pe hv2)
    · rcases outgoing_after_set hpc pc2 hv with ⟨_, hpe⟩ | ⟨_, hv2⟩
      · rw [hpe, hout] at hov
        cases hov
        exact absurd hou (notold u pd hu2)
      · exact inv.out_distinct u v pd pe o hu2 hv2 hou hov

theorem MemInv.free {m : Mem} {threads : List PC} {cells : List (Ptr × Ptr)}
    (inv : MemInv m threads cells) {t : Nat} {pc : PC} (hpc : threads[t]? = some pc) (pc2 : PC)
    {o : Ptr} (ho : outgoingOf pc = some o) (hout : outgoingOf pc2 = none) :
    m.heap.free o = some (m.heap.erase o) ∧
      MemInv { m with heap := m.heap.erase o } (threads.set t pc2) cells := by
  obtain ⟨ha, hni⟩ := inv.out_alloc t pc o hpc ho
  obtain ⟨e, he⟩ := Option.ne_none_iff_exists'.mp ha
  have old : ∀ (u : Nat) (pd : PC) (p : Ptr), (threads.set t pc2)[u]? = some pd →
      outgoingOf pd = some p → u ≠ t ∧ threads[u]? = some pd := by
    intro u pd p h hp
    rcases outgoing_after_set hpc pc2 h with ⟨_, hpd⟩ | h
    · rw [hpd, hout] at hp; cases hp
    · exact h
  refine ⟨Heap.free_eq _ _ e he, inv.list.erase o hni, ?_, ?_⟩
  · intro u pd p h hp
    obtain ⟨hut, hu⟩ := old u pd p h hp
    obtain ⟨hpa, hpn⟩ := inv.out_alloc u pd p hu hp
    have hpo : p ≠ o := by
      intro e2
      exact hut (inv.out_distinct u t pd pc o hu hpc (e2 ▸ hp) ho)
    refine ⟨?_, hpn⟩
    show (m.heap.erase o).read p ≠ none
    rw [Heap.read_erase]
    simpa [hpo] using hpa
  · intro u v pd pe p hu hv hou hov
    exact inv.out_distinct u v pd pe p (old u pd p hu hou).2 (old v pe p hv hov).2 hou hov

theorem LockInv.unchanged {q q2 : Queue} {threads : List PC} (inv : LockInv q threads) {t : Nat}
    {pc : PC} (hpc : threads[t]? = some pc) (pc2 : PC) (hh : holdsLock pc2 = holdsLock pc)
    (hl : q2.lock = q.lock) : LockInv q2 (threads.set t pc2) := by
  intro u
  rw [hl, inv u]
  by_cases hu : u = t
  · subst hu
    simp [get_set_threads hpc, hpc, hh]
  · simp [get_set_threads hpc, hu]

theorem LockInv.acquire {q q2 : Queue} {threads : List PC} (inv : LockInv q threads) {t : Nat}
    {pc : PC} (hpc : threads[t]? = some pc) (pc2 : PC) (hh : holdsLock pc2 = true)
    (hfree : q.lock = none) (hl : q2.lock = some t) : LockInv q2 (threads.set t pc2) := by
  intro u
  rw [hl]
  by_cases hu : u = t
  · subst hu
    simp [get_set_threads hpc, hh]
  · have : ¬ t = u := fun e => hu e.symm
    have hold := inv u
    rw [hfree] at hold
    simp only [get_set_threads hpc, hu, if_false, Option.some.injEq, this, false_iff]
    intro h
    exact absurd (hold.mpr h) (by simp)

theorem LockInv.release {q q2 : Queue} {threads : List PC} (inv : LockInv q threads) {t : Nat}
    {pc : PC} (hpc : threads[t]? = some pc) (pc2 : PC) (hh : holdsLock pc2 = false)
    (hheld : q.lock = some t) (hl : q2.lock = none) : LockInv q2 (threads.set t pc2) := by
  intro u
  rw [hl]
  by_cases hu : u = t
  · subst hu
    simp [get_set_threads hpc, hh]
  · have hold := inv u
    rw [hheld] at hold
    simp only [get_set_threads hpc, hu, if_false]
    constructor
    · intro h
      cases h
    · intro h
      have := hold.mpr h
      simp only [Option.some.injEq] at this
      exact absurd this.symm hu

theorem LockInv.held {q : Queue} {threads : List PC} (inv : LockInv q threads) {t : Nat}
    {pc : PC} (hpc : threads[t]? = some pc) (hh : holdsLock pc = true) : q.lock = some t :=
  (inv t).mpr ⟨pc, hpc, hh⟩

theorem CountInv.goto {N : Nat} {q : Queue} {threads : List PC} {len : Nat}
    (inv : CountInv N q threads len) {t : Nat} {pc : PC} (hpc : threads[t]? = some pc)
    (pc2 : PC) (q2 : Queue) (len2 : Nat)
    (h1 : q2.spaces_available + q2.spaces_taken + reserved pc2 + added pc2 + claimed pc2
        + removed pc2
      = q.spaces_available + q.spaces_taken + reserved pc + added pc + claimed pc + removed pc)
    (h2 : len2 + q.spaces_taken + added pc + claimed pc
      = len + q2.spaces_taken + added pc2 + claimed pc2) :
    CountInv N q2 (threads.set t pc2) len2 := by
  obtain ⟨hsems, hlen⟩ := inv
  have r1 := tally_set reserved hpc pc2
  have r2 := tally_set added hpc pc2
  have r3 := tally_set claimed hpc pc2
  have r4 := tally_set removed hpc pc2
  constructor <;> omega

/-- One step of a thread from a state that satisfies the invariant: the step either cannot be
taken now (the thread blocks), or it is taken and leads to a state that satisfies the
invariant; it never runs into undefined behaviour. -/
theorem Inv.step {N : Nat} {s : State} {cells : List (Ptr × Ptr)} (inv : Inv N s cells)
    (A : Allocator) (t : Nat) (c : Call) :
    stepThread A s t c = .blocked ∨
      ∃ s2 cells2, stepThread A s t c = .done s2 ∧ Inv N s2 cells2 := by
  obtain ⟨minv, linv, cinv⟩ := inv
  cases hpc : s.threads[t]? with
  | none => left; simp [stepThread, hpc]
  | some pc =>
    cases pc with
    | idle =>
      cases c with
      | put item =>
        exact Or.inr ⟨s.goto t (.put_wait item) s.mem, cells, by simp [stepThread, hpc],
          minv.keep hpc _ rfl rfl rfl rfl, linv.unchanged hpc _ rfl rfl,
          cinv.goto hpc _ _ _ rfl rfl⟩
      | get =>
        exact Or.inr ⟨s.goto t .get_wait s.mem, cells, by simp [stepThread, hpc],
          minv.keep hpc _ rfl rfl rfl rfl, linv.unchanged hpc _ rfl rfl,
          cinv.goto hpc _ _ _ rfl rfl⟩
    | put_wait item =>
      by_cases hz : s.mem.queue.spaces_available = 0
      · left; simp [stepThread, hpc, sem_wait, hz]
      · exact Or.inr ⟨s.goto t (.put_lock item) { s.mem with queue := { s.mem.queue with
            spaces_available := s.mem.queue.spaces_available - 1 } }, cells,
          by simp [stepThread, hpc, sem_wait, hz],
          minv.keep hpc _ rfl rfl rfl rfl, linv.unchanged hpc _ rfl rfl,
          cinv.goto hpc _ _ _ (by simp [State.goto, reserved, added, claimed, removed]; omega) rfl⟩
    | put_lock item =>
      cases hl : s.mem.queue.lock with
      | some owner => left; simp [stepThread, hpc, pthread_mutex_lock, hl]
      | none =>
        exact Or.inr ⟨s.goto t (.put_update item) { s.mem with queue := { s.mem.queue with
            lock := some t } }, cells,
          by simp [stepThread, hpc, pthread_mutex_lock, hl],
          minv.keep hpc _ rfl rfl rfl rfl, linv.acquire hpc _ rfl hl rfl,
          cinv.goto hpc _ _ _ rfl rfl⟩
    | put_update item =>
      obtain ⟨m2, hsec, minv2, h1, h2, h3⟩ := minv.put hpc (.put_unlock item) rfl A item
      refine Or.inr ⟨s.goto t (.put_unlock item) m2, _, by simp [stepThread, hpc, hsec],
          minv2, linv.unchanged hpc _ rfl h1, cinv.goto hpc _ _ _ ?_ ?_⟩
      · simp [State.goto, reserved, added, claimed, removed, h2, h3]
      · simp [State.goto, reserved, added, claimed, removed, h3]; omega
    | put_unlock item =>
      have hheld := linv.held hpc rfl
      exact Or.inr ⟨s.goto t (.put_post item) { s.mem with queue := { s.mem.queue with
            lock := none } }, cells,
          by simp [stepThread, hpc, pthread_mutex_unlock, hheld],
          minv.keep hpc _ rfl rfl rfl rfl, linv.release hpc _ rfl hheld rfl,
          cinv.goto hpc _ _ _ rfl rfl⟩
    | put_post item =>
      exact Or.inr ⟨s.goto t .idle { s.mem with queue := { s.mem.queue with
            spaces_taken := sem_post s.mem.queue.spaces_taken } }, cells,
          by simp [stepThread, hpc],
          minv.keep hpc _ rfl rfl rfl rfl, linv.unchanged hpc _ rfl rfl,
          cinv.goto hpc _ _ _ (by simp [State.goto, reserved, added, claimed, removed, sem_post]; omega)
            (by simp [State.goto, reserved, added, claimed, removed, sem_post]; omega)⟩
    | get_wait =>
      by_cases hz : s.mem.queue.spaces_taken = 0
      · left; simp [stepThread, hpc, sem_wait, hz]
      · exact Or.inr ⟨s.goto t .get_lock { s.mem with queue := { s.mem.queue with
            spaces_taken := s.mem.queue.spaces_taken - 1 } }, cells,
          by simp [stepThread, hpc, sem_wait, hz],
          minv.keep hpc _ rfl rfl rfl rfl, linv.unchanged hpc _ rfl rfl,
          cinv.goto hpc _ _ _ (by simp [State.goto, reserved, added, claimed, removed]; omega)
            (by simp [State.goto, reserved, added, claimed, removed]; omega)⟩
    | get_lock =>
      cases hl : s.mem.queue.lock with
      | some owner => left; simp [stepThread, hpc, pthread_mutex_lock, hl]
      | none =>
        exact Or.inr ⟨s.goto t .get_update { s.mem with queue := { s.mem.queue with
            lock := some t } }, cells,
          by simp [stepThread, hpc, pthread_mutex_lock, hl],
          minv.keep hpc _ rfl rfl rfl rfl, linv.acquire hpc _ rfl hl rfl,
          cinv.goto hpc _ _ _ rfl rfl⟩
    | get_update =>
      have hge := tally_ge claimed hpc
      have hlen := cinv.len
      cases cells with
      | nil =>
        simp only [claimed, List.length_nil] at hge hlen
        omega
      | cons c rest =>
        obtain ⟨m2, hsec, minv2, h1, h2, h3⟩ := minv.get hpc (.get_unlock c.1 c.2) rfl
        refine Or.inr ⟨s.goto t (.get_unlock c.1 c.2) m2, rest,
          by simp [stepThread, hpc, hsec],
          minv2, linv.unchanged hpc _ rfl h1, cinv.goto hpc _ _ _ ?_ ?_⟩
        · simp [State.goto, reserved, added, claimed, removed, h2, h3]
        · simp [State.goto, reserved, added, claimed, removed, h3]; omega
    | get_unlock o item =>
      have hheld := linv.held hpc rfl
      exact Or.inr ⟨s.goto t (.get_post o item) { s.mem with queue := { s.mem.queue with
            lock := none } }, cells,
          by simp [stepThread, hpc, pthread_mutex_unlock, hheld],
          minv.keep hpc _ rfl rfl rfl rfl, linv.release hpc _ rfl hheld rfl,
          cinv.goto hpc _ _ _ rfl rfl⟩
    | get_post o item =>
      exact Or.inr ⟨s.goto t (.get_free o item) { s.mem with queue := { s.mem.queue with
            spaces_available := sem_post s.mem.queue.spaces_available } }, cells,
          by simp [stepThread, hpc],
          minv.keep hpc _ rfl rfl rfl rfl, linv.unchanged hpc _ rfl rfl,
          cinv.goto hpc _ _ _ (by simp [State.goto, reserved, added, claimed, removed, sem_post]; omega)
            rfl⟩
    | get_free o item =>
      obtain ⟨hfree, minv2⟩ := minv.free hpc .idle (rfl : outgoingOf (.get_free o item) = some o) rfl
      exact Or.inr ⟨s.goto t .idle { s.mem with heap := s.mem.heap.erase o }, cells,
          by simp [stepThread, hpc, hfree],
          minv2, linv.unchanged hpc _ rfl rfl, cinv.goto hpc _ _ _ rfl rfl⟩

theorem Reachable.inv {N : Nat} (hN : N ≤ 2147483647) {raw : Queue} {T : Nat} {s : State}
    (h : Reachable N raw T s) : ∃ cells, Inv N s cells := by
  induction h with
  | init => exact ⟨[], Inv.init N raw T hN⟩
  | step A t c _ hstep ih =>
    obtain ⟨cells, inv⟩ := ih
    rcases inv.step A t c with hb | ⟨s2, cells2, hs, inv2⟩
    · rw [hb] at hstep; cases hstep
    · rw [hs] at hstep
      cases hstep
      exact ⟨cells2, inv2⟩

theorem Reachable.of_schedule {size : Int} {raw : Queue} {T : Nat} (A : Allocator)
    (sched : List (Nat × Call)) :
    ∀ {s s2 : State}, Reachable size raw T s → runSchedule A s sched = .done s2 →
      Reachable size raw T s2 := by
  induction sched with
  | nil =>
    intro s s2 hr h
    simp only [HttpDownloader.runSchedule, Outcome.done.injEq] at h
    exact h ▸ hr
  | cons x rest ih =>
    intro s s2 hr h
    obtain ⟨t, c⟩ := x
    simp only [HttpDownloader.runSchedule] at h
    cases hstep : stepThread A s t c with
    | done s1 =>
      rw [hstep] at h
      exact ih (Reachable.step A t c hr hstep) h
    | blocked => rw [hstep] at h; cases h
    | undefined => rw [hstep] at h; cases h

/-! ## Sequential runs as runs of one thread -/

theorem set_same {l : List PC} {t : Nat} {pc : PC} (h : l[t]? = some pc) : l.set t pc = l := by
  induction l generalizing t with
  | nil => rfl
  | cons x xs ih =>
    cases t with
    | zero =>
      simp only [List.getElem?_cons_zero, Option.some.injEq] at h
      rw [List.set_cons_zero, h]
    | succ t =>
      simp only [List.getElem?_cons_succ] at h
      rw [List.set_cons_succ, ih h]

theorem set_idle_back {l : List PC} {t : Nat} (h : l[t]? = some .idle) (pc : PC) :
    (l.set t pc).set t .idle = l := by
  rw [List.set_set, set_same h]

theorem get_after_set {l : List PC} {t : Nat} {pc : PC} (h : l[t]? = some pc) (pc2 : PC) :
    (l.set t pc2)[t]? = some pc2 := by
  rw [get_set_threads h]; simp

/-- The function `queue_put` is what the six steps of a thread do when no other thread steps
in between. -/
theorem queue_put_steps (A : Allocator) (s : State) (t : Nat) (item : Ptr) (m2 : Mem)
    (hidle : s.threads[t]? = some .idle) (h : queue_put A t s.mem item = .done m2) :
    runSchedule A s (List.replicate 6 (t, Call.put item)) = .done ⟨m2, s.threads⟩ := by
  unfold queue_put at h
  split at h
  · cases h
  · rename_i sa hsa
    split at h
    · cases h
    · rename_i held hheld
      split at h
      · cases h
      · cases h
      · rename_i m1 hm1
        split at h
        · cases h
        · rename_i unlocked hun
          cases h
          have g1 := get_after_set hidle (.put_wait item)
          have g2 := get_after_set g1 (.put_lock item)
          have g3 := get_after_set g2 (.put_update item)
          have g4 := get_after_set g3 (.put_unlock item)
          have g5 := get_after_set g4 (.put_post item)
          simp only [List.set_set] at g2 g3 g4 g5
          simp [List.replicate, runSchedule, stepThread, hidle, State.goto, g1, g2, g3, g4, g5, hsa, hheld, hm1, hun, List.set_set, set_idle_back hidle]

/-- The function `queue_get` is what the seven steps of a thread do when no other thread
steps in between. -/
theorem queue_get_steps (s : State) (t : Nat) (m2 : Mem) (item : Ptr) (A : Allocator)
    (hidle : s.threads[t]? = some .idle) (h : queue_get t s.mem = .done (m2, item)) :
    runSchedule A s (List.replicate 7 (t, Call.get)) = .done ⟨m2, s.threads⟩ := by
  unfold queue_get at h
  split at h
  · cases h
  · rename_i st hst
    split at h
    · cases h
    · rename_i held hheld
      split at h
      · cases h
      · cases h
      · rename_i m1 o it hm1
        split at h
        · cases h
        · rename_i unlocked hun
          simp only at h
          split at h
          · cases h
          · rename_i h2 hfree
            cases h
            have g1 := get_after_set hidle .get_wait
            have g2 := get_after_set g1 .get_lock
            have g3 := get_after_set g2 .get_update
            have g4 := get_after_set g3 (.get_unlock o item)
            have g5 := get_after_set g4 (.get_post o item)
            have g6 := get_after_set g5 (.get_free o item)
            simp only [List.set_set] at g2 g3 g4 g5 g6
            simp [List.replicate, runSchedule, stepThread, hidle, State.goto, g1, g2, g3, g4, g5, g6,
              hst, hheld, hm1, hun, hfree, List.set_set, set_idle_back hidle]

theorem runSchedule_append (A : Allocator) (l1 l2 : List (Nat × Call)) :
    ∀ (s s1 : State), runSchedule A s l1 = .done s1 →
      runSchedule A s (l1 ++ l2) = runSchedule A s1 l2 := by
  induction l1 with
  | nil =>
    intro s s1 h
    simp only [runSchedule, Outcome.done.injEq] at h
    rw [h]; rfl
  | cons x rest ih =>
    intro s s1 h
    obtain ⟨t, c⟩ := x
    simp only [runSchedule, List.cons_append] at h ⊢
    cases hstep : stepThread A s t c with
    | done s2 =>
      rw [hstep] at h
      simp only [hstep]
      exact ih s2 s1 h
    | blocked => rw [hstep] at h; cases h
    | undefined => rw [hstep] at h; cases h

/-- A sequential run is the run of one thread of the threaded model. -/
theorem run_as_schedule (A : Allocator) (t : Nat) (ops : List Call) :
    ∀ (s : State) (m2 : Mem) (outs : List Ptr), s.threads[t]? = some .idle →
      run A t s.mem ops = .done (m2, outs) →
      runSchedule A s (scheduleOf t ops) = .done ⟨m2, s.threads⟩ := by
  induction ops with
  | nil =>
    intro s m2 outs _ h
    simp only [run, Outcome.done.injEq, Prod.mk.injEq] at h
    simp [scheduleOf, runSchedule, ← h.1]
  | cons op rest ih =>
    intro s m2 outs hidle h
    cases op with
    | put item =>
      simp only [run] at h
      split at h
      · cases h
      · cases h
      · rename_i m1 hput
        rw [scheduleOf, runSchedule_append A _ _ s _ (queue_put_steps A s t item m1 hidle hput)]
        exact ih ⟨m1, s.threads⟩ m2 outs hidle h
    | get =>
      simp only [run] at h
      split at h
      · cases h
      · cases h
      · rename_i m1 item hget
        split at h
        · cases h
        · cases h
        · rename_i m3 items hrun
          cases h
          rw [scheduleOf, runSchedule_append A _ _ s _ (queue_get_steps s t m1 item A hidle hget)]
          exact ih ⟨m1, s.threads⟩ m2 items hidle hrun

theorem put_section_sems {A : Allocator} {m m2 : Mem} {item : Ptr}
    (h : put_section A m item = .done m2) :
    m2.queue.spaces_available = m.queue.spaces_available ∧
      m2.queue.spaces_taken = m.queue.spaces_taken := by
  unfold put_section at h
  split at h
  · simp only at h
    split at h
    · cases h
    · split at h
      · cases h
      · cases h; exact ⟨rfl, rfl⟩
  · cases h; exact ⟨rfl, rfl⟩

theorem get_section_sems {m m2 : Mem} {o item : Ptr}
    (h : get_section m = .done (m2, o, item)) :
    m2.queue.spaces_available = m.queue.spaces_available ∧
      m2.queue.spaces_taken = m.queue.spaces_taken := by
  unfold get_section at h
  simp only at h
  split at h
  · cases h
  · cases h; exact ⟨rfl, rfl⟩

/-- The only step that raises `spaces_available` is the `sem_post` of a `queue_get`, and the
only step that raises `spaces_taken` is the `sem_post` of a `queue_put`. -/
theorem step_raises {A : Allocator} {s s2 : State} {t : Nat} {c : Call}
    (h : stepThread A s t c = .done s2) :
    (s.mem.queue.spaces_available < s2.mem.queue.spaces_available →
      ∃ o item, s.threads[t]? = some (.get_post o item)) ∧
    (s.mem.queue.spaces_taken < s2.mem.queue.spaces_taken →
      ∃ item, s.threads[t]? = some (.put_post item)) := by
  cases hpc : s.threads[t]? with
  | none => simp [stepThread, hpc] at h
  | some pc =>
    cases pc with
    | idle =>
      cases c <;> (simp only [stepThread, hpc, Outcome.done.injEq] at h; subst h; simp [State.goto])
    | put_wait item =>
      simp only [stepThread, hpc, sem_wait] at h
      split at h
      · cases h
      · rename_i v hv
        split at hv
        · cases hv
        · cases hv; cases h; simp [State.goto]
    | put_lock item =>
      simp only [stepThread, hpc] at h
      split at h
      · cases h
      · cases h; simp [State.goto]
    | put_update item =>
      simp only [stepThread, hpc] at h
      split at h
      · cases h
      · cases h
      · rename_i m hm
        cases h
        obtain ⟨h1, h2⟩ := put_section_sems hm
        simp [State.goto, h1, h2]
    | put_unlock item =>
      simp only [stepThread, hpc] at h
      split at h
      · cases h
      · cases h; simp [State.goto]
    | put_post item =>
      simp only [stepThread, hpc, Outcome.done.injEq] at h
      subst h
      simp [State.goto]
    | get_wait =>
      simp only [stepThread, hpc, sem_wait] at h
      split at h
      · cases h
      · rename_i v hv
        split at hv
        · cases hv
        · cases hv; cases h; simp [State.goto]
    | get_lock =>
      simp only [stepThread, hpc] at h
      split at h
      · cases h
      · cases h; simp [State.goto]
    | get_update =>
      simp only [stepThread, hpc] at h
      split at h
      · cases h
      · cases h
      · rename_i m o item hm
        cases h
        obtain ⟨h1, h2⟩ := get_section_sems hm
        simp [State.goto, h1, h2]
    | get_unlock o item =>
      simp only [stepThread, hpc] at h
      split at h
      · cases h
      · cases h; simp [State.goto]
    | get_post o item =>
      simp only [stepThread, hpc, Outcome.done.injEq] at h
      subst h
      simp [State.goto]
    | get_free o item =>
      simp only [stepThread, hpc] at h
      split at h
      · cases h
      · cases h; simp [State.goto]

/-! ## Claims on sequential runs -/

/-- C1: on a queue from `queue_alloc(N)`, a sequential run of `queue_put` and `queue_get`
calls in which no call is issued where it would block runs to completion, every get returns,
and the i-th get returns the item of the i-th put (the run is the run of one of the threads
of the threaded model); in particular `k ≤ N` puts followed by `k` gets return the items in
the order they were put. -/
theorem queue_fifo (N : Nat) (hN : N ≤ 2147483647) (raw : Queue) (A : Allocator) (self : Nat) :
    (∀ ops, noCallBlocks N 0 ops →
      ∃ m outs, run A self (Mem.init N raw) ops = .done (m, outs) ∧
        outs.length = gets ops ∧ outs = (puts ops).take (gets ops) ∧
        ∀ T, self < T → runSchedule A (State.init N raw T) (scheduleOf self ops)
          = .done ⟨m, List.replicate T .idle⟩) ∧
    (∀ items : List Ptr, items.length ≤ N →
      ∃ m, run A self (Mem.init N raw)
        (items.map Call.put ++ List.replicate items.length Call.get) = .done (m, items)) := by
  constructor
  · intro ops hnb
    obtain ⟨m2, outs, items2, hrun, _, heq, hlen⟩ :=
      run_spec A self N ops (Mem.init N raw) [] (Rep.of_alloc N raw hN) hnb
    refine ⟨m2, outs, hrun, hlen, ?_, ?_⟩
    · simp only [List.nil_append] at heq
      rw [heq, ← hlen]
      simp
    · intro T hT
      exact run_as_schedule A self ops (State.init N raw T) m2 outs
        (List.getElem?_replicate_of_lt hT) hrun
  · intro items hlen
    obtain ⟨m2, hrun, _⟩ := run_fill_drain A self N _ items (Rep.of_alloc N raw hN) hlen
    exact ⟨m2, hrun⟩

theorem queue_fifo_witness :
    (3 : Nat) ≤ 2147483647 ∧
    ∃ m outs, run bump 0 (Mem.init (3 : Nat) rawQueue)
        [.put 10, .put 20, .get, .put 30, .put 40, .get, .get] = .done (m, outs) ∧
      outs.length = 3 ∧ outs = [10, 20, 30] ∧
      ∀ T, 0 < T → runSchedule bump (State.init (3 : Nat) rawQueue T)
          (scheduleOf 0 [.put 10, .put 20, .get, .put 30, .put 40, .get, .get])
        = .done ⟨m, List.replicate T .idle⟩ :=
  ⟨by decide, (queue_fifo 3 (by decide) rawQueue bump 0).1
    [.put 10, .put 20, .get, .put 30, .put 40, .get, .get] (by simp [noCallBlocks])⟩

/-- C6: `queue_alloc(N)`, then `N` puts, then `N` gets leaves the queue empty (`first` is
`NULL`, `spaces_taken = 0`, `spaces_available = N`, mutex free); `N` further puts followed by
`N` gets then run to completion without blocking and return the new items in the order put. -/
theorem queue_reusable_after_drain (N : Nat) (hN : N ≤ 2147483647) (raw : Queue) (A : Allocator)
    (self : Nat) (items more : List Ptr) (h1 : items.length = N) (h2 : more.length = N) :
    ∃ m, run A self (Mem.init N raw)
        (items.map Call.put ++ List.replicate N Call.get) = .done (m, items) ∧
      m.queue.first = 0 ∧ m.items = [] ∧ m.queue.spaces_taken = 0 ∧
      m.queue.spaces_available = N ∧ m.queue.lock = none ∧
      ∃ m2, run A self m (more.map Call.put ++ List.replicate N Call.get) = .done (m2, more) := by
  obtain ⟨m, hrun, rep⟩ := run_fill_drain A self N _ items (Rep.of_alloc N raw hN) (by omega)
  obtain ⟨m2, hrun2, _⟩ := run_fill_drain A self N m more rep (by omega)
  rw [h1] at hrun
  rw [h2] at hrun2
  have hfirst := rep.first_eq_zero
  have hitems := rep.holds
  obtain ⟨cells, ok, _, hlock, hst, hsa⟩ := rep
  exact ⟨m, hrun, hfirst, hitems, by simpa using hst, by simpa using hsa, hlock, m2, hrun2⟩

theorem queue_reusable_after_drain_witness :
    (5 : Nat) ≤ 2147483647 ∧ [1, 2, 3, 4, 5].length = 5 ∧ [6, 7, 8, 9, 10].length = 5 ∧
    ∃ m, run bump 0 (Mem.init (5 : Nat) rawQueue)
        ([1, 2, 3, 4, 5].map Call.put ++ List.replicate 5 Call.get)
          = .done (m, [1, 2, 3, 4, 5]) ∧
      m.queue.first = 0 ∧ m.items = [] ∧ m.queue.spaces_taken = 0 ∧
      m.queue.spaces_available = 5 ∧ m.queue.lock = none ∧
      ∃ m2, run bump 0 m ([6, 7, 8, 9, 10].map Call.put ++ List.replicate 5 Call.get)
        = .done (m2, [6, 7, 8, 9, 10]) :=
  ⟨by decide, rfl, rfl, queue_reusable_after_drain 5 (by decide) rawQueue bump 0
    [1, 2, 3, 4, 5] [6, 7, 8, 9, 10] rfl rfl⟩

/-- C2 (counterexample): `queue_alloc(0)` reports nothing: it returns an initialised queue
whose semaphores are both 0, and the first `queue_put` on that queue blocks.  For `-1` the
`sem_init` of `spaces_available` fails, unnoticed, and a queue is returned all the same. -/
theorem queue_alloc_zero_returns_queue :
    queue_alloc 0 rawQueue = ⟨0, 0, none, 0, 0⟩ ∧
    queue_put bump 0 (Mem.init 0 rawQueue) 10 = .blocked ∧
    queue_alloc (-1) rawQueue = ⟨0, 0, none, 9, 0⟩ := by
  refine ⟨by decide, rfl, by decide⟩

/-- C2 (amended): `queue_alloc` never fails, whatever the capacity: it returns a queue with
`first` and `last` `NULL`, the mutex free and `spaces_taken = 0`; for `0 ≤ size ≤ INT_MAX`
`spaces_available = size`.  So a queue of capacity 0 is returned, and every `queue_put` on it
blocks. -/
theorem queue_alloc_never_fails (size : Int) (raw : Queue) :
    (queue_alloc size raw).first = 0 ∧ (queue_alloc size raw).last = 0 ∧
    (queue_alloc size raw).lock = none ∧ (queue_alloc size raw).spaces_taken = 0 ∧
    (0 ≤ size → size ≤ 2147483647 → (queue_alloc size raw).spaces_available = size.toNat) ∧
    (∀ (A : Allocator) (self : Nat) (item : Ptr),
      queue_put A self (Mem.init 0 raw) item = .blocked) := by
  refine ⟨rfl, rfl, rfl, sem_init_of_le raw.spaces_taken 0 (by omega), ?_, ?_⟩
  · intro h0 hmax
    have h := sem_init_of_le raw.spaces_available size.toNat (by omega)
    rw [Int.toNat_of_nonneg h0] at h
    exact h
  · intro A self item
    exact queue_put_blocks A self 0 _ [] item (Rep.of_alloc 0 raw (by omega)) rfl

theorem queue_alloc_never_fails_witness :
    (queue_alloc 5 rawQueue).spaces_available = 5 ∧
    (queue_alloc 0 rawQueue).spaces_available = 0 :=
  ⟨(queue_alloc_never_fails 5 rawQueue).2.2.2.2.1 (by decide) (by decide),
   (queue_alloc_never_fails 0 rawQueue).2.2.2.2.1 (by decide) (by decide)⟩

/-! ## Claims on concurrent runs -/

theorem midPut_reachable : Reachable (1 : Nat) rawQueue 1 midPut :=
  Reachable.of_schedule bump [(0, .put 10), (0, .get), (0, .get), (0, .get)] Reachable.init rfl

theorem fullQueue_reachable : Reachable (1 : Nat) rawQueue 2 fullQueue :=
  Reachable.of_schedule bump
    [(0, .put 10), (0, .get), (0, .get), (0, .get), (0, .get), (0, .get), (1, .put 20)]
    Reachable.init rfl

theorem midGet_reachable : Reachable (1 : Nat) rawQueue 2 midGet :=
  Reachable.of_schedule bump
    [(0, .put 10), (0, .get), (0, .get), (0, .get), (0, .get), (0, .get),
     (1, .get), (1, .get), (1, .get)]
    Reachable.init rfl

/-- C3 (counterexample): with capacity 1, the state in which the only thread has linked its
element in `queue_put` and not yet posted is reachable; there one element is reachable from
`first` while `spaces_taken = 0`, and `spaces_available + spaces_taken = 0`, not 1. -/
theorem counters_off_inside_put :
    ∃ s, Reachable (1 : Nat) rawQueue 1 s ∧ s.mem.count = 1 ∧
      s.mem.queue.spaces_taken = 0 ∧ s.mem.queue.spaces_available = 0 ∧
      ¬ (s.mem.count = s.mem.queue.spaces_taken ∧
          s.mem.queue.spaces_available + s.mem.queue.spaces_taken = 1) :=
  ⟨midPut, midPut_reachable, rfl, rfl, rfl, by decide⟩

/-- C3 (amended): in every reachable state of a queue from `queue_alloc(N)`,
`spaces_available + spaces_taken` plus the number of calls between their `sem_wait` and their
`sem_post` is `N`, and the number of elements reachable from `first` is `spaces_taken` plus the
puts that have linked their element but not yet posted plus the gets that have passed their
wait but not yet unlinked the head.  So whenever no call is between its wait and its post, the
count is `spaces_taken` and `spaces_available + spaces_taken = N`. -/
theorem queue_counters_invariant (N : Nat) (hN : N ≤ 2147483647) (raw : Queue) (T : Nat)
    (s : State) (h : Reachable N raw T s) :
    s.mem.queue.spaces_available + s.mem.queue.spaces_taken + tally inFlight s.threads = N ∧
    s.mem.count = s.mem.queue.spaces_taken + tally added s.threads + tally claimed s.threads ∧
    (tally inFlight s.threads = 0 →
      s.mem.count = s.mem.queue.spaces_taken ∧
      s.mem.queue.spaces_available + s.mem.queue.spaces_taken = N) := by
  obtain ⟨cells, inv⟩ := h.inv hN
  have hc := inv.mem.list.count_eq
  have hs := inv.count.sems
  have hl := inv.count.len
  have hf := tally_inFlight s.threads
  refine ⟨by omega, by omega, fun h0 => ⟨by omega, by omega⟩⟩

theorem queue_counters_invariant_witness :
    (1 : Nat) ≤ 2147483647 ∧ Reachable (1 : Nat) rawQueue 1 midPut ∧
    midPut.mem.queue.spaces_available + midPut.mem.queue.spaces_taken
      + tally inFlight midPut.threads = 1 ∧
    midPut.mem.count = midPut.mem.queue.spaces_taken + tally added midPut.threads
      + tally claimed midPut.threads :=
  ⟨by decide, midPut_reachable,
    (queue_counters_invariant 1 (by decide) rawQueue 1 midPut midPut_reachable).1,
    (queue_counters_invariant 1 (by decide) rawQueue 1 midPut midPut_reachable).2.1⟩

/-- C4: in every state reachable by any interleaving of any number of `queue_put` and
`queue_get` calls on a queue from `queue_alloc(N)`, at most `N` elements are on the list; when
`N` are, `spaces_available` is 0; while it is 0 no `queue_put` can pass its `sem_wait`; and the
only step that raises `spaces_available` is the `sem_post` of a `queue_get`. -/
theorem queue_never_exceeds_capacity (N : Nat) (hN : N ≤ 2147483647) (raw : Queue) (T : Nat)
    (s : State) (h : Reachable N raw T s) :
    s.mem.count ≤ N ∧
    (s.mem.count = N → s.mem.queue.spaces_available = 0) ∧
    (s.mem.queue.spaces_available = 0 → ∀ (A : Allocator) (t : Nat) (c : Call) (item : Ptr),
      s.threads[t]? = some (.put_wait item) → stepThread A s t c = .blocked) ∧
    (∀ (A : Allocator) (t : Nat) (c : Call) (s2 : State), stepThread A s t c = .done s2 →
      s.mem.queue.spaces_available < s2.mem.queue.spaces_available →
      ∃ o item, s.threads[t]? = some (.get_post o item)) := by
  obtain ⟨cells, inv⟩ := h.inv hN
  have hc := inv.mem.list.count_eq
  have hs := inv.count.sems
  have hl := inv.count.len
  refine ⟨by omega, fun _ => by omega, ?_, fun A t c s2 hstep => (step_raises hstep).1⟩
  intro hz A t c item hpc
  simp [stepThread, hpc, sem_wait, hz]

theorem queue_never_exceeds_capacity_witness :
    (1 : Nat) ≤ 2147483647 ∧ Reachable (1 : Nat) rawQueue 2 fullQueue ∧
    fullQueue.mem.count = 1 ∧ fullQueue.mem.queue.spaces_available = 0 ∧
    stepThread bump fullQueue 1 .get = .blocked :=
  ⟨by decide, fullQueue_reachable, rfl,
    (queue_never_exceeds_capacity 1 (by decide) rawQueue 2 fullQueue fullQueue_reachable).2.1 rfl,
    (queue_never_exceeds_capacity 1 (by decide) rawQueue 2 fullQueue fullQueue_reachable).2.2.1
      rfl bump 1 .get 20 rfl⟩

/-- C5: in every reachable state of a queue from `queue_alloc(N)`: when no element is on the
list `spaces_taken` is 0; while it is 0 no `queue_get` can pass its `sem_wait`; the only step
that raises `spaces_taken` is the `sem_post` of a `queue_put`; and whenever a thread is in the
locked section of `queue_get`, `first` is not `NULL` and points to an allocated element, so the
section reads its `item` and `next` and completes.  No step of any thread is undefined. -/
theorem queue_get_head_not_null (N : Nat) (hN : N ≤ 2147483647) (raw : Queue) (T : Nat)
    (s : State) (h : Reachable N raw T s) :
    (s.mem.count = 0 → s.mem.queue.spaces_taken = 0) ∧
    (s.mem.queue.spaces_taken = 0 → ∀ (A : Allocator) (t : Nat) (c : Call),
      s.threads[t]? = some .get_wait → stepThread A s t c = .blocked) ∧
    (∀ (A : Allocator) (t : Nat) (c : Call) (s2 : State), stepThread A s t c = .done s2 →
      s.mem.queue.spaces_taken < s2.mem.queue.spaces_taken →
      ∃ item, s.threads[t]? = some (.put_post item)) ∧
    (∀ t : Nat, s.threads[t]? = some .get_update →
      s.mem.queue.first ≠ 0 ∧
      ∃ e, s.mem.heap.read s.mem.queue.first = some e ∧
        get_section s.mem = .done
          ({ s.mem with queue := { s.mem.queue with first := e.next } },
            s.mem.queue.first, e.item)) ∧
    (∀ (A : Allocator) (t : Nat) (c : Call), stepThread A s t c ≠ .undefined) := by
  obtain ⟨cells, inv⟩ := h.inv hN
  have hc := inv.mem.list.count_eq
  have hl := inv.count.len
  refine ⟨fun _ => by omega, ?_, fun A t c s2 hstep => (step_raises hstep).2, ?_, ?_⟩
  · intro hz A t c hpc
    simp [stepThread, hpc, sem_wait, hz]
  · intro t hpc
    have hge := tally_ge claimed hpc
    cases hcells : cells with
    | nil =>
      rw [hcells] at hl
      simp only [claimed, List.length_nil] at hge hl
      omega
    | cons c rest =>
      have ok := inv.mem.list
      rw [hcells] at ok
      obtain ⟨hp, hnz, nxt, hr, _⟩ := ok.chain
      refine ⟨by rw [hp]; exact hnz, ⟨c.2, nxt⟩, by rw [hp]; exact hr, ?_⟩
      simp [get_section, hp, hr]
  · intro A t c hu
    rcases inv.step A t c with hb | ⟨s2, cells2, hs, _⟩
    · rw [hb] at hu; cases hu
    · rw [hs] at hu; cases hu

theorem queue_get_head_not_null_witness :
    (1 : Nat) ≤ 2147483647 ∧ Reachable (1 : Nat) rawQueue 2 midGet ∧
    midGet.threads[1]? = some .get_update ∧ midGet.mem.queue.first ≠ 0 :=
  ⟨by decide, midGet_reachable, rfl,
    ((queue_get_head_not_null 1 (by decide) rawQueue 2 midGet midGet_reachable).2.2.2.1
      1 rfl).1⟩

/-! ## Strings -/

theorem takeWhile_of_not_mem (x : Nat) (l : List Nat) (h : x ∉ l) :
    l.takeWhile (fun c => c != x) = l := by
  induction l with
  | nil => rfl
  | cons c rest ih =>
    simp only [List.mem_cons, not_or] at h
    have hc : (c != x) = true := bne_iff_ne.mpr (fun e => h.1 e.symm)
    rw [List.takeWhile_cons, hc, if_pos rfl, ih h.2]

theorem takeWhile_append_stop (x : Nat) (a r : List Nat) :
    (a ++ x :: r).takeWhile (fun c => c != x) = a.takeWhile (fun c => c != x) := by
  induction a with
  | nil => simp [List.takeWhile_cons]
  | cons c rest ih =>
    rw [List.cons_append, List.takeWhile_cons, List.takeWhile_cons, ih]

/-- An array that holds `text`, then a zero: the C string it stores is `text` up to its own
first zero. -/
theorem cstr_append_zero (text r : List Nat) :
    cstr (text ++ 0 :: r) = some (text.takeWhile (fun c => c != 0)) := by
  unfold cstr
  rw [takeWhile_append_stop, if_pos (by simp)]

theorem strstr_eq_firstOccurrence (sep : List Nat) (buf : List Nat) :
    strstr buf sep = firstOccurrence sep buf := by
  induction buf with
  | nil => simp [strstr, firstOccurrence, List.range_succ]
  | cons c rest ih =>
    unfold firstOccurrence at ih ⊢
    rw [strstr, ih]
    simp only [List.length_cons]
    rw [List.range_succ_eq_map (rest.length + 1), List.find?_cons]
    simp only [List.drop_zero, List.find?_map]
    by_cases hp : sep.isPrefixOf (c :: rest) = true
    · simp [hp]
    · simp only [hp]
      congr 1

theorem Buffer.data_eq (b : Buffer) (hterm : b.data[b.length]? = some 0) :
    b.data = b.content ++ 0 :: b.data.drop (b.length + 1) := by
  obtain ⟨hlt, hget⟩ := List.getElem?_eq_some.mp hterm
  unfold Buffer.content
  rw [← hget, ← List.drop_eq_getElem_cons hlt, List.take_append_drop]

theorem strstr_single (c : Nat) (pre post : List Nat) (h : c ∉ pre) :
    strstr (pre ++ c :: post) [c] = some pre.length := by
  induction pre with
  | nil => simp [strstr, List.isPrefixOf]
  | cons x rest ih =>
    simp only [List.mem_cons, not_or] at h
    have hx : (c == x) = false := by simpa using h.1
    simp [strstr, List.isPrefixOf, hx, ih h.2]

theorem strstr_single_none (c : Nat) (text : List Nat) (h : c ∉ text) :
    strstr text [c] = none := by
  induction text with
  | nil => simp [strstr, List.isPrefixOf]
  | cons x rest ih =>
    simp only [List.mem_cons, not_or] at h
    have hx : (c == x) = false := by simpa using h.1
    simp [strstr, List.isPrefixOf, hx, ih h.2]

theorem strncpy_short (src : List Nat) (n : Nat) (h : src.length < n) :
    strncpy src n = src ++ 0 :: List.replicate (n - src.length - 1) 0 := by
  unfold strncpy
  rw [if_pos h]
  have : n - src.length = (n - src.length - 1) + 1 := by omega
  rw [this, List.replicate_succ]
  simp

theorem cstr_of_text (text r : List Nat) (h : 0 ∉ text) : cstr (text ++ 0 :: r) = some text := by
  rw [cstr_append_zero, takeWhile_of_not_mem 0 _ h]

theorem cstr_none (mem : List Nat) (h : 0 ∉ mem) : cstr mem = none := by
  simp [cstr, h]

/-- A url that splits as `pre`, `/`, `post` with no `/` in `pre`, shorter than `BUF_SIZE`:
`http_url` calls `http_query(pre, post, 80)`. -/
theorem http_url_split (pre post : List Nat) (hpre : 0 ∉ pre) (hpost : 0 ∉ post)
    (hslash : 47 ∉ pre) (hlen : (pre ++ 47 :: post).length < BUF_SIZE) :
    http_url (pre ++ 47 :: post) = .done (some { host := pre, page := post, port := 80 }) := by
  have hurl : 0 ∉ pre ++ 47 :: post := by
    simp only [List.mem_append, List.mem_cons, not_or]
    exact ⟨hpre, by decide, hpost⟩
  have h1 := strncpy_short _ _ hlen
  generalize List.replicate (BUF_SIZE - (pre ++ 47 :: post).length - 1) 0 = zeros at h1
  have hset : (pre ++ 47 :: post ++ 0 :: zeros).set pre.length 0
      = pre ++ 0 :: (post ++ 0 :: zeros) := by
    rw [List.append_assoc, List.set_append_right _ _ (Nat.le_refl _)]
    simp
  have hdrop : (pre ++ 0 :: (post ++ 0 :: zeros)).drop (pre.length + 1) = post ++ 0 :: zeros := by
    rw [List.drop_append]
    rfl
  unfold http_url
  simp only [h1, cstr_of_text _ _ hurl, show bytes "/" = [47] from rfl,
    strstr_single 47 pre post hslash, hset, hdrop, cstr_of_text _ _ hpre,
    cstr_of_text _ _ hpost]

/-- A url of `BUF_SIZE` or more characters fills the array `host` without a terminator, and
the search for `/` is not confined to the array. -/
theorem http_url_long (url : List Nat) (h0 : 0 ∉ url) (hlen : BUF_SIZE ≤ url.length) :
    http_url url = .undefined := by
  have h1 : strncpy url BUF_SIZE = url.take BUF_SIZE := by
    unfold strncpy
    rw [if_neg (by omega)]
  have h2 : 0 ∉ url.take BUF_SIZE := fun h => h0 (List.mem_of_mem_take h)
  unfold http_url
  simp only [h1, cstr_none _ h2]

/-- C7 (counterexample): on the response `a`, zero byte, `\r\n\r\n`, `hello`, the bytes after
the first separator are `hello`, but `http_get_content` returns the start of the buffer:
`strstr` stops at the zero byte. -/
theorem http_get_content_stops_at_zero :
    zeroInHeader.data[zeroInHeader.length]? = some 0 ∧
    http_get_content zeroInHeader = .done 0 ∧
    split_body zeroInHeader.content = bytes "hello" ∧
    zeroInHeader.content.drop 0 ≠ split_body zeroInHeader.content := by
  refine ⟨by decide, rfl, by decide, by decide⟩

/-- C7 (amended): for every response buffer that ends with its zero terminator,
`http_get_content` returns the bytes after the first occurrence of `\r\n\r\n` in the part of
the buffer before its first zero byte, and the entire buffer when there is none there.  For a
buffer without a zero byte this is the spec's `split_body`. -/
theorem http_get_content_spec (b : Buffer) (hterm : b.data[b.length]? = some 0) :
    ∃ off, http_get_content b = .done off ∧
      b.content.drop off =
        (match firstOccurrence (bytes "\r\n\r\n") (b.content.takeWhile (fun c => c != 0)) with
          | some i => b.content.drop (i + 4)
          | none => b.content) ∧
      (0 ∉ b.content → b.content.drop off = split_body b.content) := by
  have hc : cstr b.data = some (b.content.takeWhile (fun c => c != 0)) := by
    rw [b.data_eq hterm]
    exact cstr_append_zero _ _
  have hs := strstr_eq_firstOccurrence (bytes "\r\n\r\n")
    (b.content.takeWhile (fun c => c != 0))
  cases hf : firstOccurrence (bytes "\r\n\r\n") (b.content.takeWhile (fun c => c != 0)) with
  | none =>
    rw [hf] at hs
    refine ⟨0, by simp [http_get_content, hc, hs], by simp, ?_⟩
    intro h0
    rw [takeWhile_of_not_mem 0 _ h0] at hf
    simp [split_body, hf]
  | some i =>
    rw [hf] at hs
    refine ⟨i + 4, by simp [http_get_content, hc, hs], rfl, ?_⟩
    intro h0
    rw [takeWhile_of_not_mem 0 _ h0] at hf
    simp [split_body, hf]

theorem http_get_content_spec_witness :
    helloResponse.data[helloResponse.length]? = some 0 ∧
    ∃ off, http_get_content helloResponse = .done off ∧
      helloResponse.content.drop off =
        (match firstOccurrence (bytes "\r\n\r\n")
            (helloResponse.content.takeWhile (fun c => c != 0)) with
          | some i => helloResponse.content.drop (i + 4)
          | none => helloResponse.content) ∧
      (0 ∉ helloResponse.content →
        helloResponse.content.drop off = split_body helloResponse.content) :=
  ⟨by decide, http_get_content_spec helloResponse (by decide)⟩

theorem split_body_examples :
    split_body (bytes "HTTP/1.0 200 OK\r\n\r\nhello") = bytes "hello" ∧
    split_body (bytes "hello") = bytes "hello" := by
  decide

/-- C8 (counterexample): the url `a/bbb...b` of 2049 characters contains a `/`, yet `http_url`
does not call `http_query("a", "bbb...b", 80)`: `strncpy` fills `host` without a terminator
and the behaviour is undefined. -/
theorem http_url_long_url_with_slash :
    47 ∈ (97 :: 47 :: List.replicate 2047 98) ∧
    http_url (97 :: 47 :: List.replicate 2047 98) = .undefined ∧
    http_url (97 :: 47 :: List.replicate 2047 98)
      ≠ .done (some { host := [97], page := List.replicate 2047 98, port := 80 }) := by
  have h : http_url (97 :: 47 :: List.replicate 2047 98) = .undefined := by
    apply http_url_long
    · intro hm
      rcases List.mem_cons.mp hm with e | hm
      · cases e
      · rcases List.mem_cons.mp hm with e | hm
        · cases e
        · exact absurd (List.eq_of_mem_replicate hm) (by decide)
    · rw [List.length_cons, List.length_cons, List.length_replicate]
      decide
  refine ⟨List.mem_cons_of_mem _ (List.mem_cons_self _ _), h, ?_⟩
  rw [h]
  intro e
  cases e

/-- C8 (amended): for every url string shorter than `BUF_SIZE` = 2048 characters that
contains a `/`, `http_url` calls `http_query` with host the characters before the first `/`,
page all characters after the first `/`, and port 80. -/
theorem http_url_splits_at_first_slash (url : List Nat) (h0 : 0 ∉ url) (hslash : 47 ∈ url)
    (hlen : url.length < BUF_SIZE) :
    http_url url = .done (some
      { host := url.takeWhile (fun c => c != 47)
        page := (url.dropWhile (fun c => c != 47)).tail
        port := 80 }) := by
  have hsplit := List.takeWhile_append_dropWhile (fun c => c != 47) url
  have hpre : ∀ x ∈ url.takeWhile (fun c => c != 47), x ≠ 47 := by
    intro x hx
    simpa using List.mem_takeWhile_imp hx
  cases hd : url.dropWhile (fun c => c != 47) with
  | nil =>
    rw [hd, List.append_nil] at hsplit
    rw [← hsplit] at hslash
    exact absurd rfl (hpre 47 hslash)
  | cons c post =>
    have hc : c = 47 := by
      have := List.head_dropWhile_not (fun c => c != 47) url (by rw [hd]; simp)
      simpa [hd] using this
    subst hc
    rw [hd] at hsplit
    have h0' : 0 ∉ url.takeWhile (fun c => c != 47) ++ 47 :: post := by rw [hsplit]; exact h0
    simp only [List.mem_append, List.mem_cons, not_or] at h0'
    have key := http_url_split (url.takeWhile (fun c => c != 47)) post h0'.1 h0'.2.2
      (fun h => hpre 47 h rfl) (by rw [hsplit]; exact hlen)
    rw [hsplit] at key
    exact key

theorem http_url_splits_at_first_slash_witness :
    0 ∉ bytes "example.com/page" ∧ 47 ∈ bytes "example.com/page" ∧
    (bytes "example.com/page").length < BUF_SIZE ∧
    http_url (bytes "example.com/page") = .done (some
      { host := bytes "example.com", page := bytes "page", port := 80 }) :=
  ⟨by decide, by decide, by decide,
    http_url_splits_at_first_slash (bytes "example.com/page") (by decide) (by decide)
      (by decide)⟩

/-- C9 (counterexample): the url `bbb...b` of 2048 characters contains no `/`, yet `http_url`
does not return `NULL`: `host` has no terminator and `strstr` searches past the array. -/
theorem http_url_long_url_without_slash :
    47 ∉ List.replicate 2048 98 ∧
    http_url (List.replicate 2048 98) = .undefined ∧
    http_url (List.replicate 2048 98) ≠ .done none := by
  have h : http_url (List.replicate 2048 98) = .undefined := by
    apply http_url_long
    · exact fun hm => absurd (List.eq_of_mem_replicate hm) (by decide)
    · rw [List.length_replicate]
      decide
  refine ⟨fun hm => absurd (List.eq_of_mem_replicate hm) (by decide), h, ?_⟩
  rw [h]
  intro e
  cases e

/-- C9 (amended): for every url string shorter than `BUF_SIZE` = 2048 characters that
contains no `/`, `http_url` returns `NULL` and makes no `http_query` call. -/
theorem http_url_no_slash (url : List Nat) (h0 : 0 ∉ url) (hslash : 47 ∉ url)
    (hlen : url.length < BUF_SIZE) : http_url url = .done none := by
  unfold http_url
  simp only [strncpy_short _ _ hlen, cstr_of_text _ _ h0, show bytes "/" = [47] from rfl,
    strstr_single_none 47 url hslash]

theorem http_url_no_slash_witness :
    0 ∉ bytes "noslash" ∧ 47 ∉ bytes "noslash" ∧ (bytes "noslash").length < BUF_SIZE ∧
    http_url (bytes "noslash") = .done none :=
  ⟨by decide, by decide, by decide,
    http_url_no_slash (bytes "noslash") (by decide) (by decide) (by decide)⟩

/-! ## Claims on get_response -/

theorem realloc_length (data : List Nat) (size : Nat) (fill : Nat → Nat) :
    (realloc data size fill).length = size := by
  simp [realloc]
  omega

theorem realloc_take (data : List Nat) (size n : Nat) (fill : Nat → Nat) (h1 : n ≤ size)
    (h2 : n ≤ data.length) : (realloc data size fill).take n = data.take n := by
  unfold realloc
  rw [List.take_append_of_le_length (by simp; omega), List.take_take, Nat.min_eq_left h1]

theorem recvInto_spec (data : List Nat) (offset : Nat) (chunk : List Nat)
    (h : offset + chunk.length ≤ data.length) :
    ∃ d, recvInto data offset chunk = some d ∧ d.length = data.length ∧
      d.take (offset + chunk.length) = data.take offset ++ chunk := by
  refine ⟨_, if_pos h, ?_, ?_⟩
  · simp
    omega
  · have hl : (data.take offset ++ chunk).length = offset + chunk.length := by
      simp
      omega
    rw [← hl, List.take_left]

/-- The loop from a buffer with room for `BUF_SIZE` bytes after its content: it is left with
the chunks appended to the content, and again with that much room. -/
theorem recv_loop_spec (fill : Nat → Nat) (chunks : List (List Nat))
    (hc : ∀ c ∈ chunks, 1 ≤ c.length ∧ c.length ≤ BUF_SIZE) :
    ∀ buf : Buffer, buf.length + BUF_SIZE ≤ buf.data.length →
      ∃ b, recv_loop fill buf chunks = .done b ∧
        b.length = buf.length + chunks.flatten.length ∧
        b.content = buf.content ++ chunks.flatten ∧
        b.length + BUF_SIZE ≤ b.data.length := by
  induction chunks with
  | nil =>
    intro buf hroom
    exact ⟨buf, rfl, by simp, by simp, hroom⟩
  | cons c rest ih =>
    intro buf hroom
    obtain ⟨h1, h2⟩ := hc c (List.mem_cons_self _ _)
    obtain ⟨d, hd, hdl, hdt⟩ := recvInto_spec buf.data buf.length c (by omega)
    obtain ⟨b, hb, hlen, hcontent, hroom2⟩ := ih (fun x hx => hc x (List.mem_cons_of_mem _ hx))
      { data := realloc d (buf.length + c.length + BUF_SIZE) fill
        length := buf.length + c.length }
      (by simp only [realloc_length]; omega)
    refine ⟨b, ?_, ?_, ?_, hroom2⟩
    · have hne : ¬ c.length = 0 := by omega
      simp only [recv_loop, hne, if_false, hd]
      exact hb
    · simp only [List.flatten_cons, List.length_append]
      simp only at hlen
      omega
    · rw [hcontent]
      simp only [Buffer.content, List.flatten_cons]
      rw [realloc_take _ _ _ _ (by omega) (by omega), hdt, List.append_assoc]

theorem recv_loop_append (fill : Nat → Nat) (l1 l2 : List (List Nat))
    (hc : ∀ c ∈ l1, 1 ≤ c.length) :
    ∀ (buf b : Buffer), recv_loop fill buf l1 = .done b →
      recv_loop fill buf (l1 ++ l2) = recv_loop fill b l2 := by
  induction l1 with
  | nil =>
    intro buf b h
    simp only [recv_loop, Outcome.done.injEq] at h
    rw [h]; rfl
  | cons c rest ih =>
    intro buf b h
    have hne : ¬ c.length = 0 := by
      have := hc c (List.mem_cons_self _ _)
      omega
    simp only [recv_loop, hne, if_false, List.cons_append] at h ⊢
    cases hr : recvInto buf.data buf.length c with
    | none => rw [hr] at h; cases h
    | some d =>
      rw [hr] at h
      simp only [hr]
      exact ih (fun x hx => hc x (List.mem_cons_of_mem _ hx)) _ b h

theorem create_buffer_room (fill : Nat → Nat) :
    (create_buffer fill).length + BUF_SIZE ≤ (create_buffer fill).data.length := by
  simp [create_buffer, mallocBytes]

theorem take_set_self (l : List Nat) (n x : Nat) : (l.set n x).take n = l.take n := by
  induction l generalizing n with
  | nil => simp
  | cons a as ih =>
    cases n with
    | zero => simp
    | succ n => simp [ih]

/-- C11: for every sequence of chunks delivered by `recv`, each of 1 to `BUF_SIZE` bytes, and
ended by a return value `≤ 0` (the end of the sequence, or an empty chunk), `get_response` on a
buffer from `create_buffer` returns with `length` the total number of bytes received, the first
`length` bytes of `data` the chunks in arrival order, and `data[length]` zero. -/
theorem get_response_collects (fill : Nat → Nat) (chunks : List (List Nat))
    (hc : ∀ c ∈ chunks, 1 ≤ c.length ∧ c.length ≤ BUF_SIZE) :
    ∃ b, get_response fill (create_buffer fill) chunks = .done b ∧
      b.length = chunks.flatten.length ∧ b.content = chunks.flatten ∧
      b.data[b.length]? = some 0 ∧
      ∀ tail, get_response fill (create_buffer fill) (chunks ++ [] :: tail) = .done b := by
  obtain ⟨b, hb, hlen, hcontent, hroom⟩ :=
    recv_loop_spec fill chunks hc (create_buffer fill) (create_buffer_room fill)
  have hlt : b.length < b.data.length := by
    have : 0 < BUF_SIZE := by decide
    omega
  have hlen0 : (create_buffer fill).length = 0 := rfl
  have hcontent0 : (create_buffer fill).content = [] := by simp [Buffer.content, create_buffer]
  refine ⟨{ b with data := b.data.set b.length 0 }, ?_, ?_, ?_, ?_, ?_⟩
  · simp [get_response, hb, hlt]
  · simp only [hlen, hlen0, Nat.zero_add]
  · show (b.data.set b.length 0).take b.length = chunks.flatten
    rw [take_set_self]
    have : b.content = b.data.take b.length := rfl
    rw [← this, hcontent, hcontent0, List.nil_append]
  · show (b.data.set b.length 0)[b.length]? = some 0
    simp [hlt]
  · intro tail
    have happ := recv_loop_append fill chunks ([] :: tail) (fun c h => (hc c h).1) _ b hb
    have hstop : recv_loop fill b ([] :: tail) = .done b := by simp [recv_loop]
    simp [get_response, happ, hstop, hlt]

theorem get_response_collects_witness :
    (∀ c ∈ [bytes "HTTP/1.0 200 OK\r\n", bytes "\r\nhello"], 1 ≤ c.length ∧ c.length ≤ BUF_SIZE) ∧
    ∃ b, get_response (fun _ => 255) (create_buffer (fun _ => 255))
        [bytes "HTTP/1.0 200 OK\r\n", bytes "\r\nhello"] = .done b ∧
      b.length = 24 ∧ b.content = bytes "HTTP/1.0 200 OK\r\n\r\nhello" ∧
      b.data[b.length]? = some 0 :=
  ⟨by decide,
    (get_response_collects (fun _ => 255) [bytes "HTTP/1.0 200 OK\r\n", bytes "\r\nhello"]
      (by decide)).imp fun _ h => ⟨h.1, h.2.1, h.2.2.1, h.2.2.2.1⟩⟩

/-- C16: throughout `get_response` on a buffer from `create_buffer`, for every sequence of
received chunk sizes in 1..`BUF_SIZE`: at every `recv` call (the one after `k` chunks, for every
`k`, the last one included) the block `data` has at least `length + BUF_SIZE` bytes, so the
bytes `recv` may write at offset `length` and the terminator written at `data[length]` when the
loop is left lie inside the block. -/
theorem get_response_room (fill : Nat → Nat) (chunks : List (List Nat))
    (hc : ∀ c ∈ chunks, 1 ≤ c.length ∧ c.length ≤ BUF_SIZE) (k : Nat) :
    ∃ b, recv_loop fill (create_buffer fill) (chunks.take k) = .done b ∧
      recv_loop fill b (chunks.drop k) = recv_loop fill (create_buffer fill) chunks ∧
      b.length + BUF_SIZE ≤ b.data.length ∧ b.length < b.data.length ∧
      ∀ c ∈ (chunks.drop k).head?, recvInto b.data b.length c ≠ none := by
  obtain ⟨b, hb, _, _, hroom⟩ := recv_loop_spec fill (chunks.take k)
    (fun c h => hc c (List.mem_of_mem_take h)) (create_buffer fill) (create_buffer_room fill)
  have happ := recv_loop_append fill (chunks.take k) (chunks.drop k)
    (fun c h => (hc c (List.mem_of_mem_take h)).1) _ b hb
  rw [List.take_append_drop] at happ
  have hpos : 0 < BUF_SIZE := by decide
  refine ⟨b, hb, happ.symm, hroom, by omega, ?_⟩
  intro c hmem
  have hin : c ∈ chunks := by
    have : c ∈ chunks.drop k := List.mem_of_mem_head? hmem
    exact List.mem_of_mem_drop this
  have := (hc c hin).2
  simp [recvInto]
  omega

theorem get_response_room_witness :
    (∀ c ∈ [bytes "HTTP/1.0 200 OK\r\n", bytes "\r\nhello"], 1 ≤ c.length ∧ c.length ≤ BUF_SIZE) ∧
    ∃ b, recv_loop (fun _ => 255) (create_buffer (fun _ => 255))
        ([bytes "HTTP/1.0 200 OK\r\n", bytes "\r\nhello"].take 1) = .done b ∧
      b.length + BUF_SIZE ≤ b.data.length ∧ b.length < b.data.length :=
  ⟨by decide,
    (get_response_room (fun _ => 255) [bytes "HTTP/1.0 200 OK\r\n", bytes "\r\nhello"]
      (by decide) 1).imp fun _ h => ⟨h.1, h.2.2.1, h.2.2.2.1⟩⟩

/-! ## Claims on addrinfo_init -/

theorem digits_length_pos (fuel n : Nat) : 1 ≤ (digits (fuel + 1) n).length := by
  unfold digits
  split <;> simp

theorem digits_step (fuel n : Nat) (h : 10 ≤ n) :
    digits (fuel + 1) n = digits fuel (n / 10) ++ [48 + n % 10] := by
  rw [digits, if_neg (by omega)]

theorem digits_no_zero (fuel : Nat) : ∀ n, 0 ∉ digits fuel n := by
  induction fuel with
  | zero => intro n; simp [digits]
  | succ fuel ih =>
    intro n
    unfold digits
    split
    · simp
      omega
    · have := ih (n / 10)
      simp [this]
      omega

theorem decimal_no_zero (value : Int) : 0 ∉ decimal value := by
  unfold decimal
  split
  · simp [digits_no_zero]
  · exact digits_no_zero _ _

/-- A number of four or more digits does not fit `port_string`. -/
theorem decimal_length_ge (port : Int) (h : 1000 ≤ port) : 4 ≤ (decimal port).length := by
  obtain ⟨n, rfl⟩ := Int.eq_ofNat_of_zero_le (by omega : 0 ≤ port)
  have hn : 1000 ≤ n := by omega
  obtain ⟨k, hk⟩ : ∃ k, n + 1 = k + 1 + 3 := ⟨n - 3, by omega⟩
  unfold decimal
  rw [if_neg (by omega), Int.natAbs_ofNat, hk, digits_step _ _ (by omega),
    digits_step _ _ (by omega), digits_step _ _ (by omega)]
  have := digits_length_pos k (n / 10 / 10 / 10)
  simp only [List.length_append, List.length_singleton]
  omega

/-- A number of at most three digits fits `port_string`. -/
theorem decimal_length_le (port : Int) (h0 : 0 ≤ port) (h : port ≤ 999) :
    (decimal port).length ≤ 3 := by
  obtain ⟨n, rfl⟩ := Int.eq_ofNat_of_zero_le h0
  have hn : n ≤ 999 := by omega
  unfold decimal
  rw [if_neg (by omega), Int.natAbs_ofNat]
  by_cases h1 : n < 10
  · rw [digits, if_pos h1]; simp
  · obtain ⟨k, hk⟩ : ∃ k, n = k + 1 := ⟨n - 1, by omega⟩
    rw [digits_step _ _ (by omega)]
    by_cases h2 : n / 10 < 10
    · rw [hk, digits, if_pos (by omega)]; simp
    · obtain ⟨j, hj⟩ : ∃ j, n = j + 2 := ⟨n - 2, by omega⟩
      rw [hj, digits_step _ _ (by omega), digits, if_pos (by omega)]
      simp

theorem addrinfo_init_service_small (stack : Nat → Nat) (port : Int) (h0 : 0 ≤ port)
    (h : port ≤ 999) : addrinfo_init_service stack port = .done (decimal port) := by
  have hl := decimal_length_le port h0 h
  unfold addrinfo_init_service sprintf
  simp only [List.length_map, List.length_range]
  rw [if_pos (by omega)]
  simp only [List.append_assoc, List.singleton_append, cstr_of_text _ _ (decimal_no_zero port)]

theorem addrinfo_init_service_large (stack : Nat → Nat) (port : Int) (h : 1000 ≤ port) :
    addrinfo_init_service stack port = .undefined := by
  have hl := decimal_length_ge port h
  unfold addrinfo_init_service sprintf
  simp only [List.length_map, List.length_range]
  rw [if_neg (by omega)]

/-- C12 (failing input): for port 8080 the text `8080` and its terminator need five bytes,
`port_string` has four, and `sprintf` writes past the array; so it does for every port from
1000 to 65535.  Ports up to 999, such as 80, are handed to the resolver in decimal. -/
theorem port_string_overflow :
    decimal 8080 = bytes "8080" ∧
    addrinfo_init_service (fun _ => 0) 8080 = .undefined ∧
    addrinfo_init_service (fun _ => 0) 80 = .done (bytes "80") ∧
    (∀ (stack : Nat → Nat) (port : Int), 1000 ≤ port → port ≤ 65535 →
      addrinfo_init_service stack port = .undefined) ∧
    (∀ (stack : Nat → Nat) (port : Int), 0 ≤ port → port ≤ 999 →
      addrinfo_init_service stack port = .done (decimal port)) :=
  ⟨by decide, addrinfo_init_service_large _ 8080 (by decide),
    addrinfo_init_service_small _ 80 (by decide) (by decide),
    fun stack port h _ => addrinfo_init_service_large stack port h,
    fun stack port h0 h => addrinfo_init_service_small stack port h0 h⟩

/-! ## Claims on last and on queue_free -/

theorem Chain.trail {h : Heap} {cells : List (Ptr × Ptr)} :
    ∀ {p : Ptr} (fuel : Nat), Chain h p cells → cells.length ≤ fuel →
      h.trail fuel p = cells.map Prod.fst := by
  induction cells with
  | nil =>
    intro p fuel hc _
    have : p = 0 := hc
    subst this
    cases fuel <;> simp [Heap.trail]
  | cons c rest ih =>
    intro p fuel hc hlen
    obtain ⟨hp, hnz, nxt, hr, hrest⟩ := hc
    cases fuel with
    | zero => simp at hlen
    | succ fuel =>
      subst hp
      simp only [List.length_cons, Nat.add_le_add_iff_right] at hlen
      simp [Heap.trail, hnz, hr, ih fuel hrest hlen]

theorem ListOK.last_final {m : Mem} {cells : List (Ptr × Ptr)} (ok : ListOK m cells)
    (hfirst : m.queue.first ≠ 0) :
    m.elements.getLast? = some m.queue.last ∧
      ∃ item, m.heap.read m.queue.last = some ⟨item, 0⟩ := by
  have helts : m.elements = cells.map Prod.fst := ok.chain.trail _ (ok.chain.length_le ok.nodup)
  rcases List.eq_nil_or_concat cells with hnil | ⟨init, c, hcons⟩
  · exact absurd (ok.chain.first_eq_zero_iff.mpr hnil) hfirst
  · obtain ⟨l, x⟩ := c
    simp only [List.concat_eq_append] at hcons
    subst hcons
    have hlast : m.queue.last = l := ok.last (l, x) (by simp)
    refine ⟨by rw [helts, hlast]; simp, x, ?_⟩
    rw [hlast]
    exact ok.chain.read_last

theorem drained_reachable : Reachable (1 : Nat) rawQueue 1 drained :=
  Reachable.of_schedule bump (scheduleOf 0 [.put 10, .get]) Reachable.init rfl

theorem refilled_reachable : Reachable (1 : Nat) rawQueue 1 refilled :=
  Reachable.of_schedule bump (scheduleOf 0 [.put 10, .get, .put 20]) Reachable.init rfl

/-- C15: in every state reached from `queue_alloc(N)` by steps of `queue_put` and `queue_get`
calls, and so in every state reached by completed calls: if `first` is not `NULL` then `last`
is the final element of the chain reachable from `first`, and its `next` is `NULL`.  This
covers the queue that was drained and refilled, although `queue_get` leaves `last` pointing
to the freed element. -/
theorem last_is_final_element (N : Nat) (hN : N ≤ 2147483647) (raw : Queue) :
    (∀ (T : Nat) (s : State), Reachable N raw T s → s.mem.queue.first ≠ 0 →
      s.mem.elements.getLast? = some s.mem.queue.last ∧
        ∃ item, s.mem.heap.read s.mem.queue.last = some ⟨item, 0⟩) ∧
    (∀ (A : Allocator) (self : Nat) (ops : List Call) (m : Mem) (outs : List Ptr),
      run A self (Mem.init N raw) ops = .done (m, outs) → m.queue.first ≠ 0 →
      m.elements.getLast? = some m.queue.last ∧
        ∃ item, m.heap.read m.queue.last = some ⟨item, 0⟩) := by
  have key : ∀ (T : Nat) (s : State), Reachable N raw T s → s.mem.queue.first ≠ 0 →
      s.mem.elements.getLast? = some s.mem.queue.last ∧
        ∃ item, s.mem.heap.read s.mem.queue.last = some ⟨item, 0⟩ := by
    intro T s h hfirst
    obtain ⟨cells, inv⟩ := h.inv hN
    exact inv.mem.list.last_final hfirst
  refine ⟨key, ?_⟩
  intro A self ops m outs hrun hfirst
  have hsched := run_as_schedule A self ops (State.init N raw (self + 1)) m outs
    (List.getElem?_replicate_of_lt (Nat.lt_succ_self self)) hrun
  exact key (self + 1) ⟨m, _⟩ (Reachable.of_schedule A _ Reachable.init hsched) hfirst

theorem last_is_final_element_witness :
    (1 : Nat) ≤ 2147483647 ∧
    Reachable (1 : Nat) rawQueue 1 drained ∧ drained.mem.queue.first = 0 ∧
    drained.mem.queue.last = 1 ∧ drained.mem.heap.read 1 = none ∧
    Reachable (1 : Nat) rawQueue 1 refilled ∧ refilled.mem.queue.first ≠ 0 ∧
    refilled.mem.elements.getLast? = some refilled.mem.queue.last ∧
    ∃ item, refilled.mem.heap.read refilled.mem.queue.last = some ⟨item, 0⟩ :=
  ⟨by decide, drained_reachable, rfl, rfl, rfl, refilled_reachable, by decide,
    ((last_is_final_element 1 (by decide) rawQueue).1 1 refilled refilled_reachable
      (by decide)).1,
    ((last_is_final_element 1 (by decide) rawQueue).1 1 refilled refilled_reachable
      (by decide)).2⟩

/-- On a queue that is not empty `queue_free` frees the first element and then reads its
`next` field. -/
theorem queue_free_nonempty (m : Mem) (blocks : List Ptr) (hfirst : m.queue.first ≠ 0) :
    queue_free m blocks = .undefined := by
  unfold queue_free queue_free_loop
  rw [if_neg hfirst]
  unfold queue_element_free
  cases hr : m.heap.read m.queue.first with
  | none => rfl
  | some e =>
    simp only
    cases hi : freeItem blocks e.item with
    | none => rfl
    | some blocks2 =>
      simp only [Heap.free_eq _ _ e hr, Heap.read_erase, if_true]

/-- C17 (failing input): on the queue that holds the one item 10, `queue_element_free`
releases the item and the element, and `queue_free` then reads `current->next` in the element
just released; so it does on every queue that is not empty.  The empty queue is freed without
such a read. -/
theorem queue_free_reads_freed_element :
    run bump 0 (Mem.init 1 rawQueue) [.put 10] = .done (oneItemQueue, []) ∧
    oneItemQueue.items = [10] ∧
    queue_element_free oneItemQueue.heap [10] oneItemQueue.queue.first = .done (⟨[]⟩, []) ∧
    (⟨[]⟩ : Heap).read oneItemQueue.queue.first = none ∧
    queue_free oneItemQueue [10] = .undefined ∧
    (∀ (m : Mem) (blocks : List Ptr), m.queue.first ≠ 0 → queue_free m blocks = .undefined) ∧
    queue_free (Mem.init 1 rawQueue) [] = .done (⟨[]⟩, []) :=
  ⟨rfl, rfl, rfl, rfl, rfl, queue_free_nonempty, rfl⟩

/-! ## Claims on the synchronisation order -/

/-- Every step that is taken is the step its program point prescribes. -/
theorem step_effect {A : Allocator} {s s2 : State} {t : Nat} {c : Call} {pc : PC}
    (hpc : s.threads[t]? = some pc) (h : stepThread A s t c = .done s2) :
    ∃ pc2 m2, s2 = s.goto t pc2 m2 ∧ Effect A t c s.mem pc pc2 m2 := by
  cases pc with
  | idle =>
    cases c <;>
      (simp only [stepThread, hpc, Outcome.done.injEq] at h
       exact ⟨_, _, h.symm, rfl, rfl⟩)
  | put_wait item =>
    simp only [stepThread, hpc, sem_wait] at h
    split at h
    · cases h
    · rename_i v hv
      split at hv
      · cases hv
      · rename_i hne
        cases hv; cases h
        exact ⟨_, _, rfl, hne, rfl, rfl⟩
  | put_lock item =>
    simp only [stepThread, hpc, pthread_mutex_lock] at h
    split at h
    · cases h
    · rename_i l hl
      split at hl
      · rename_i hnone
        cases hl; cases h
        exact ⟨_, _, rfl, hnone, rfl, rfl⟩
      · cases hl
  | put_update item =>
    simp only [stepThread, hpc] at h
    split at h
    · cases h
    · cases h
    · rename_i m hm
      cases h
      exact ⟨_, _, rfl, hm, rfl⟩
  | put_unlock item =>
    simp only [stepThread, hpc, pthread_mutex_unlock] at h
    split at h
    · cases h
    · rename_i l hl
      split at hl
      · rename_i hheld
        cases hl; cases h
        exact ⟨_, _, rfl, hheld, rfl, rfl⟩
      · cases hl
  | put_post item =>
    simp only [stepThread, hpc, Outcome.done.injEq] at h
    exact ⟨_, _, h.symm, rfl, rfl⟩
  | get_wait =>
    simp only [stepThread, hpc, sem_wait] at h
    split at h
    · cases h
    · rename_i v hv
      split at hv
      · cases hv
      · rename_i hne
        cases hv; cases h
        exact ⟨_, _, rfl, hne, rfl, rfl⟩
  | get_lock =>
    simp only [stepThread, hpc, pthread_mutex_lock] at h
    split at h
    · cases h
    · rename_i l hl
      split at hl
      · rename_i hnone
        cases hl; cases h
        exact ⟨_, _, rfl, hnone, rfl, rfl⟩
      · cases hl
  | get_update =>
    simp only [stepThread, hpc] at h
    split at h
    · cases h
    · cases h
    · rename_i m o item hm
      cases h
      exact ⟨_, _, rfl, o, item, hm, rfl⟩
  | get_unlock o item =>
    simp only [stepThread, hpc, pthread_mutex_unlock] at h
    split at h
    · cases h
    · rename_i l hl
      split at hl
      · rename_i hheld
        cases hl; cases h
        exact ⟨_, _, rfl, hheld, rfl, rfl⟩
      · cases hl
  | get_post o item =>
    simp only [stepThread, hpc, Outcome.done.injEq] at h
    exact ⟨_, _, h.symm, rfl, rfl⟩
  | get_free o item =>
    simp only [stepThread, hpc] at h
    split at h
    · cases h
    · rename_i hp hfree
      cases h
      exact ⟨_, _, rfl, rfl, hp, hfree, rfl⟩

theorem put_section_lock {A : Allocator} {m m2 : Mem} {item : Ptr}
    (h : put_section A m item = .done m2) : m2.queue.lock = m.queue.lock := by
  unfold put_section at h
  split at h
  · simp only at h
    split at h
    · cases h
    · split at h
      · cases h
      · cases h; rfl
  · cases h; rfl

theorem get_section_lock {m m2 : Mem} {o item : Ptr}
    (h : get_section m = .done (m2, o, item)) : m2.queue.lock = m.queue.lock := by
  unfold get_section at h
  simp only at h
  split at h
  · cases h
  · cases h; rfl

/-- The step at a program point performs the first of the operations that remain there and
leaves the others to be performed; a step that starts a call leaves the whole sequence. -/
theorem effect_order {A : Allocator} {t : Nat} {c : Call} {m m2 : Mem} {pc pc2 : PC}
    (h : Effect A t c m pc pc2 m2) :
    (pc = .idle → remaining pc2 = callOps c ∧ m2 = m) ∧
    (pc ≠ .idle → remaining pc2 = (remaining pc).tail) ∧
    (∀ op, (remaining pc).head? = some op → performs op t m.queue m2.queue) ∧
    ((remaining pc).head? = none → m2.queue = m.queue) := by
  cases pc with
  | idle =>
    obtain ⟨hm, hpc2⟩ := h
    subst hm hpc2
    cases c <;> simp [remaining, callOps]
  | put_wait item =>
    obtain ⟨hne, hpc2, hm⟩ := h
    subst hpc2 hm
    simp [remaining, performs, hne]
  | put_lock item =>
    obtain ⟨hl, hpc2, hm⟩ := h
    subst hpc2 hm
    simp [remaining, performs, hl]
  | put_update item =>
    obtain ⟨hsec, hpc2⟩ := h
    subst hpc2
    have h1 := put_section_lock hsec
    obtain ⟨h2, h3⟩ := put_section_sems hsec
    simp [remaining, performs, h1, h2, h3]
  | put_unlock item =>
    obtain ⟨hl, hpc2, hm⟩ := h
    subst hpc2 hm
    simp [remaining, performs, hl]
  | put_post item =>
    obtain ⟨hpc2, hm⟩ := h
    subst hpc2 hm
    simp [remaining, performs]
  | get_wait =>
    obtain ⟨hne, hpc2, hm⟩ := h
    subst hpc2 hm
    simp [remaining, performs, hne]
  | get_lock =>
    obtain ⟨hl, hpc2, hm⟩ := h
    subst hpc2 hm
    simp [remaining, performs, hl]
  | get_update =>
    obtain ⟨o, item, hsec, hpc2⟩ := h
    subst hpc2
    have h1 := get_section_lock hsec
    obtain ⟨h2, h3⟩ := get_section_sems hsec
    simp [remaining, performs, h1, h2, h3]
  | get_unlock o item =>
    obtain ⟨hl, hpc2, hm⟩ := h
    subst hpc2 hm
    simp [remaining, performs, hl]
  | get_post o item =>
    obtain ⟨hpc2, hm⟩ := h
    subst hpc2 hm
    simp [remaining, performs]
  | get_free o item =>
    obtain ⟨hpc2, hp, _, hm⟩ := h
    subst hpc2 hm
    simp [remaining]

/-- Only the list update changes `first` or `last`. -/
theorem effect_list_change {A : Allocator} {t : Nat} {c : Call} {m m2 : Mem} {pc pc2 : PC}
    (h : Effect A t c m pc pc2 m2)
    (hch : m2.queue.first ≠ m.queue.first ∨ m2.queue.last ≠ m.queue.last) :
    holdsLock pc = true ∧ (remaining pc).head? = some .update := by
  have ho := effect_order h
  cases hop : (remaining pc).head? with
  | none =>
    rw [ho.2.2.2 hop] at hch
    simp at hch
  | some op =>
    have hp := ho.2.2.1 op hop
    cases op with
    | update => cases pc <;> simp [remaining] at hop <;> exact ⟨rfl, rfl⟩
    | wait_available => obtain ⟨_, e⟩ := hp; rw [e] at hch; simp at hch
    | wait_taken => obtain ⟨_, e⟩ := hp; rw [e] at hch; simp at hch
    | lock => obtain ⟨_, e⟩ := hp; rw [e] at hch; simp at hch
    | unlock => obtain ⟨_, e⟩ := hp; rw [e] at hch; simp at hch
    | post_taken => have e : m2.queue = _ := hp; rw [e] at hch; simp at hch
    | post_available => have e : m2.queue = _ := hp; rw [e] at hch; simp at hch

/-- C14: in every reachable state, a step of a thread performs the next operation of its
call, and the operations of a `queue_put` are, in this order, wait on `spaces_available`,
lock, list update, unlock, post on `spaces_taken`, those of a `queue_get` wait on
`spaces_taken`, lock, list update, unlock, post on `spaces_available`; a step with no
operation left (the start of a call, the `free` at the end of `queue_get`) leaves the mutex
and both semaphores as they are; a thread that is about
to wait on a semaphore does not hold the mutex; and `first` and `last` are changed only by the
list update of the thread that holds the mutex. -/
theorem queue_sync_discipline (N : Nat) (hN : N ≤ 2147483647) (raw : Queue) (T : Nat)
    (s : State) (h : Reachable N raw T s) :
    (∀ (A : Allocator) (t : Nat) (c : Call) (s2 : State) (pc : PC),
      s.threads[t]? = some pc → stepThread A s t c = .done s2 →
      ∃ pc2, s2.threads = s.threads.set t pc2 ∧
        (pc = .idle → remaining pc2 = callOps c ∧ s2.mem = s.mem) ∧
        (pc ≠ .idle → remaining pc2 = (remaining pc).tail) ∧
        (∀ op, (remaining pc).head? = some op →
          performs op t s.mem.queue s2.mem.queue) ∧
        ((remaining pc).head? = none → s2.mem.queue = s.mem.queue)) ∧
    (∀ (t : Nat) (pc : PC), s.threads[t]? = some pc →
      ((remaining pc).head? = some .wait_available ∨
        (remaining pc).head? = some .wait_taken) →
      s.mem.queue.lock ≠ some t) ∧
    (∀ (A : Allocator) (t : Nat) (c : Call) (s2 : State), stepThread A s t c = .done s2 →
      (s2.mem.queue.first ≠ s.mem.queue.first ∨ s2.mem.queue.last ≠ s.mem.queue.last) →
      s.mem.queue.lock = some t ∧
        ∃ pc, s.threads[t]? = some pc ∧ (remaining pc).head? = some .update) := by
  obtain ⟨cells, inv⟩ := h.inv hN
  refine ⟨?_, ?_, ?_⟩
  · intro A t c s2 pc hpc hstep
    obtain ⟨pc2, m2, hs2, heff⟩ := step_effect hpc hstep
    subst hs2
    have ho := effect_order heff
    exact ⟨pc2, rfl, ho.1, ho.2.1, ho.2.2.1, ho.2.2.2⟩
  · intro t pc hpc hwait hlock
    obtain ⟨pd, hpd, hheld⟩ := (inv.lock t).mp hlock
    rw [hpc] at hpd
    cases hpd
    cases pc <;> simp [remaining, holdsLock] at hwait hheld
  · intro A t c s2 hstep hch
    cases hpc : s.threads[t]? with
    | none => simp [stepThread, hpc] at hstep
    | some pc =>
      obtain ⟨pc2, m2, hs2, heff⟩ := step_effect hpc hstep
      subst hs2
      obtain ⟨hheld, hop⟩ := effect_list_change heff hch
      exact ⟨inv.lock.held hpc hheld, pc, rfl, hop⟩

theorem queue_sync_discipline_witness :
    (1 : Nat) ≤ 2147483647 ∧ Reachable (1 : Nat) rawQueue 2 fullQueue ∧
    fullQueue.threads[1]? = some (.put_wait 20) ∧
    remaining (.put_wait 20) = [.wait_available, .lock, .update, .unlock, .post_taken] ∧
    fullQueue.mem.queue.lock ≠ some 1 :=
  ⟨by decide, fullQueue_reachable, rfl, rfl,
    (queue_sync_discipline 1 (by decide) rawQueue 2 fullQueue fullQueue_reachable).2.1
      1 (.put_wait 20) rfl (Or.inl rfl)⟩

/-! ## Claims on what is delivered -/

theorem Execution.reachable {size : Int} {raw : Queue} {T : Nat} {s : State} {h : History}
    (hex : Execution size raw T s h) : Reachable size raw T s := by
  induction hex with
  | init => exact Reachable.init
  | step A t c _ hstep ih => exact Reachable.step A t c ih hstep

theorem Execution.of_run {size : Int} {raw : Queue} {T : Nat} (A : Allocator)
    (sched : List (Nat × Call)) :
    ∀ {s s2 : State} {h h2 : History}, Execution size raw T s h →
      runHistory A s h sched = .done (s2, h2) → Execution size raw T s2 h2 := by
  induction sched with
  | nil =>
    intro s s2 h h2 hex hrun
    simp only [runHistory, Outcome.done.injEq, Prod.mk.injEq] at hrun
    rw [← hrun.1, ← hrun.2]
    exact hex
  | cons x rest ih =>
    intro s s2 h h2 hex hrun
    obtain ⟨t, c⟩ := x
    simp only [runHistory] at hrun
    cases hstep : stepThread A s t c with
    | done s1 =>
      rw [hstep] at hrun
      exact ih (Execution.step A t c hex hstep) hrun
    | blocked => rw [hstep] at hrun; cases hrun
    | undefined => rw [hstep] at hrun; cases hrun

theorem tally_all_idle (w : PC → Nat) (hw : w .idle = 0) (l : List PC)
    (h : ∀ pc ∈ l, pc = .idle) : tally w l = 0 := by
  unfold tally
  induction l with
  | nil => rfl
  | cons x xs ih =>
    have hx := h x (List.mem_cons_self _ _)
    subst hx
    simp only [List.map_cons, List.sum_cons, hw, Nat.zero_add]
    exact ih (fun pc hpc => h pc (List.mem_cons_of_mem _ hpc))

/-- A step moves an item between the history, the list and the hands of the stepping call,
and neither makes nor loses one. -/
theorem effect_items {N : Nat} {s : State} {cells : List (Ptr × Ptr)} (inv : Inv N s cells)
    {A : Allocator} {t : Nat} {c : Call} {pc pc2 : PC} {m2 : Mem}
    (hpc : s.threads[t]? = some pc) (heff : Effect A t c s.mem pc pc2 m2)
    (h : History) (x : Ptr) :
    (record s t c h).puts.count x + s.mem.items.count x + carries x pc + h.gots.count x
      = h.puts.count x + m2.items.count x + carries x pc2 + (record s t c h).gots.count x := by
  have hitems := inv.mem.list.items_eq
  cases pc with
  | idle =>
    obtain ⟨hm, hpc2⟩ := heff
    subst hm hpc2
    cases c with
    | put item =>
      simp only [record, hpc, carries, carried, List.count_append, List.count_singleton]
      by_cases hx : item = x <;> simp [hx]
      omega
    | get => simp [record, hpc, carries, carried]
  | put_wait item =>
    obtain ⟨_, hpc2, hm⟩ := heff
    subst hpc2 hm
    simp [record, hpc, carries, carried, Mem.items]
  | put_lock item =>
    obtain ⟨_, hpc2, hm⟩ := heff
    subst hpc2 hm
    simp [record, hpc, carries, carried, Mem.items]
  | put_update item =>
    obtain ⟨hsec, hpc2⟩ := heff
    subst hpc2
    obtain ⟨m3, hsec3, minv3, _⟩ := inv.mem.put hpc (.put_unlock item) rfl A item
    rw [hsec] at hsec3
    cases hsec3
    rw [minv3.list.items_eq, hitems]
    simp only [record, hpc, carries, carried, List.map_append, List.map_cons, List.map_nil,
      List.count_append, List.count_singleton]
    by_cases hx : item = x <;> simp [hx]
    omega
  | put_unlock item =>
    obtain ⟨_, hpc2, hm⟩ := heff
    subst hpc2 hm
    simp [record, hpc, carries, carried, Mem.items]
  | put_post item =>
    obtain ⟨hpc2, hm⟩ := heff
    subst hpc2 hm
    simp [record, hpc, carries, carried, Mem.items]
  | get_wait =>
    obtain ⟨_, hpc2, hm⟩ := heff
    subst hpc2 hm
    simp [record, hpc, carries, carried, Mem.items]
  | get_lock =>
    obtain ⟨_, hpc2, hm⟩ := heff
    subst hpc2 hm
    simp [record, hpc, carries, carried, Mem.items]
  | get_update =>
    obtain ⟨o, item, hsec, hpc2⟩ := heff
    subst hpc2
    have hge := tally_ge claimed hpc
    have hlen := inv.count.len
    cases cells with
    | nil =>
      simp only [claimed, List.length_nil] at hge hlen
      omega
    | cons d rest =>
      obtain ⟨m3, hsec3, minv3, _⟩ := inv.mem.get hpc (.get_unlock d.1 d.2) rfl
      rw [hsec] at hsec3
      cases hsec3
      rw [minv3.list.items_eq, hitems]
      simp only [record, hpc, carries, carried, List.map_cons, List.count_cons]
      by_cases hx : d.2 = x <;> simp [hx]
      omega
  | get_unlock o item =>
    obtain ⟨_, hpc2, hm⟩ := heff
    subst hpc2 hm
    simp [record, hpc, carries, carried, Mem.items]
  | get_post o item =>
    obtain ⟨hpc2, hm⟩ := heff
    subst hpc2 hm
    simp [record, hpc, carries, carried, Mem.items]
  | get_free o item =>
    obtain ⟨hpc2, hp, hfree, hm⟩ := heff
    subst hpc2 hm
    obtain ⟨hfree3, minv3⟩ := inv.mem.free hpc .idle
      (rfl : outgoingOf (.get_free o item) = some o) rfl
    rw [hfree3] at hfree
    cases hfree
    rw [minv3.list.items_eq, hitems]
    simp only [record, hpc, carries, carried, List.count_append, List.count_singleton]
    by_cases hx : item = x <;> simp [hx]
    omega

theorem Execution.balanced {N : Nat} (hN : N ≤ 2147483647) {raw : Queue} {T : Nat}
    {s : State} {h : History} (hex : Execution N raw T s h) : Balanced s h := by
  induction hex with
  | init =>
    intro x
    have : tally (carries x) (State.init N raw T).threads = 0 :=
      tally_replicate_idle _ rfl T
    rw [this]
    simp [State.init, Mem.init, Mem.items, Heap.walk]
  | step A t c hprev hstep ih =>
    rename_i s1 s2 h1
    intro x
    obtain ⟨cells, inv⟩ := hprev.reachable.inv hN
    cases hpc : s1.threads[t]? with
    | none => simp [stepThread, hpc] at hstep
    | some pc =>
      obtain ⟨pc2, m2, hs2, heff⟩ := step_effect hpc hstep
      have key := effect_items inv hpc heff h1 x
      have hset := tally_set (carries x) hpc pc2
      have hold := ih x
      subst hs2
      show (record s1 t c h1).puts.count x
        = m2.items.count x + tally (carries x) (s1.threads.set t pc2)
          + (record s1 t c h1).gots.count x
      omega

/-- C13: in every execution of any number of threads calling `queue_put` and `queue_get`, in
any interleaving: no item is returned more often than it was passed to `queue_put`; when all
calls have returned, the items passed to `queue_put` are exactly the items returned by
`queue_get` together with those still queued; so when moreover the queue has been drained,
the items delivered are the items enqueued (each as often as it was enqueued, as many in
total), and an item of pairwise distinct items is delivered by exactly one `queue_get`. -/
theorem no_loss_no_duplication (N : Nat) (hN : N ≤ 2147483647) (raw : Queue) (T : Nat)
    (s : State) (h : History) (hex : Execution N raw T s h) :
    (∀ x, h.gots.count x ≤ h.puts.count x) ∧
    ((∀ pc ∈ s.threads, pc = .idle) → h.puts.Perm (h.gots ++ s.mem.items)) ∧
    ((∀ pc ∈ s.threads, pc = .idle) → s.mem.count = 0 →
      h.gots.Perm h.puts ∧ h.gots.length = h.puts.length ∧
      (h.puts.Nodup → ∀ x ∈ h.puts, h.gots.count x = 1)) := by
  have hbal := hex.balanced hN
  have hperm : (∀ pc ∈ s.threads, pc = .idle) → h.puts.Perm (h.gots ++ s.mem.items) := by
    intro hidle
    rw [List.perm_iff_count]
    intro x
    have h0 : tally (carries x) s.threads = 0 := tally_all_idle _ rfl _ hidle
    have := hbal x
    rw [List.count_append]
    omega
  refine ⟨fun x => by have := hbal x; omega, hperm, ?_⟩
  intro hidle hcount
  have hnil : s.mem.items = [] := List.length_eq_zero.mp hcount
  have hp := hperm hidle
  rw [hnil, List.append_nil] at hp
  refine ⟨hp.symm, hp.length_eq.symm, ?_⟩
  intro hnd x hx
  rw [hp.symm.count_eq x]
  exact List.count_eq_one_of_mem hnd hx

theorem afterTwoProducers_execution :
    Execution (2 : Nat) rawQueue 3 afterTwoProducers ⟨[10, 20], [20, 10]⟩ :=
  Execution.of_run bump twoProducers Execution.init rfl

theorem no_loss_no_duplication_witness :
    (2 : Nat) ≤ 2147483647 ∧
    Execution (2 : Nat) rawQueue 3 afterTwoProducers ⟨[10, 20], [20, 10]⟩ ∧
    (∀ pc ∈ afterTwoProducers.threads, pc = .idle) ∧ afterTwoProducers.mem.count = 0 ∧
    [20, 10].Perm [10, 20] ∧ [20, 10].length = [10, 20].length :=
  ⟨by decide, afterTwoProducers_execution, by decide, rfl,
    ((no_loss_no_duplication 2 (by decide) rawQueue 3 afterTwoProducers ⟨[10, 20], [20, 10]⟩
      afterTwoProducers_execution).2.2 (by decide) rfl).1,
    ((no_loss_no_duplication 2 (by decide) rawQueue 3 afterTwoProducers ⟨[10, 20], [20, 10]⟩
      afterTwoProducers_execution).2.2 (by decide) rfl).2.1⟩

/-! ## Claims on build_request and http_query -/

end HttpDownloader
